import Mathlib

/-!
Shallow embedding of the RLWE prototype (`poly_utils.py`, `rlwe.py`) and proofs
about its negacyclic ring arithmetic, samplers, message codec and scheme
operations.

Python's numeric tower is modelled by `RLWE.PyNum`: an `int` carries an exact
integer and a `float` carries a rational.  True division `/` always yields a
`float`, mirroring Python 3.  Two semantics are given to the float-touching
operations: an exact-rational one (`pyDiv`, `pySub`, `pyMul`), which agrees
with CPython exactly as long as every intermediate value is an integer of
magnitude below 2^53 (each such value is a representable binary64 double, and
every operation on the verified path then produces another one), and a
binary64 one (`pyDivD`, `pySubD`, `pyMulD`), built on `roundDouble` —
round-to-nearest, ties-to-even, 53-bit significand — which reproduces
CPython's rounding above 2^53 and is used to exhibit where the program
diverges from the exact negacyclic arithmetic.  Randomness is modelled by
passing the drawn values explicitly: `random.getrandbits` draws become a
stream `ℕ → ℕ` and `random.gauss` draws a stream `ℕ → ℚ`.  Python exceptions
are modelled with `Except PyError`.
-/

namespace RLWE

/-- A Python number: either an `int` (exact integer) or a `float`
(modelled as an exact rational). -/
inductive PyNum where
  | int : ℤ → PyNum
  | float : ℚ → PyNum
deriving DecidableEq, Repr

/-- Numeric value of a Python number. -/
def PyNum.toRat : PyNum → ℚ
  | int z => (z : ℚ)
  | float x => x

/-- Whether the value is a Python `float`. -/
def PyNum.isFloat : PyNum → Bool
  | int _ => false
  | float _ => true

/-- Python `+`: `int + int` stays `int`, any float operand makes a float. -/
def pyAdd (a b : PyNum) : PyNum :=
  match a, b with
  | .int x, .int y => .int (x + y)
  | _, _ => .float (a.toRat + b.toRat)

/-- Python `-` (binary): `int - int` stays `int`, any float operand makes a float. -/
def pySub (a b : PyNum) : PyNum :=
  match a, b with
  | .int x, .int y => .int (x - y)
  | _, _ => .float (a.toRat - b.toRat)

/-- Python `*`: `int * int` stays `int`, any float operand makes a float. -/
def pyMul (a b : PyNum) : PyNum :=
  match a, b with
  | .int x, .int y => .int (x * y)
  | _, _ => .float (a.toRat * b.toRat)

/-- Python unary `-`. -/
def pyNeg (a : PyNum) : PyNum :=
  match a with
  | .int x => .int (-x)
  | .float x => .float (-x)

/-- Python true division `/`: always produces a float (Python 3 semantics).
The sources only ever divide by the leading coefficient of `x^n + 1`, which is
1, so the division-by-zero exception never arises on the paths we verify. -/
def pyDiv (a b : PyNum) : PyNum :=
  .float (a.toRat / b.toRat)

/-- Python `x % m` for an integer modulus `m`: on ints this is `Int.fmod`
(result has the sign of the divisor, exactly Python's `%`); on a float it is
the floor-based real remainder, again a float. -/
def pyModInt (a : PyNum) (m : ℤ) : PyNum :=
  match a with
  | .int z => .int (Int.fmod z m)
  | .float x => .float (x - m * ⌊x / (m : ℚ)⌋)

/-- Python `round` on a rational value: round half to even (banker's
rounding), as Python 3's `round` does. -/
def pyroundRat (x : ℚ) : ℤ :=
  let n := ⌊x + 1/2⌋
  if x + 1/2 = (n : ℚ) ∧ ¬ (2 ∣ n) then n - 1 else n

/-- Python `round` on a number: the identity on ints, banker's rounding on
floats. -/
def pyround : PyNum → ℤ
  | .int z => z
  | .float x => pyroundRat x

/-- The `Polynomial` class of `poly_utils.py`: a bare coefficient list. -/
structure Polynomial where
  coefficients : List PyNum
deriving DecidableEq, Repr

/-- One step of Python's `while len > 1 and p(last): pop()` trimming, acting
on the reversed coefficient list. -/
def popTrailingAux (p : PyNum → Bool) : List PyNum → List PyNum
  | [] => []
  | [x] => [x]
  | x :: xs => if p x then popTrailingAux p xs else x :: xs

/-- Pop trailing entries satisfying `p` while more than one entry remains. -/
def popTrailing (p : PyNum → Bool) (l : List PyNum) : List PyNum :=
  (popTrailingAux p l.reverse).reverse

/-- The trailing-zero trim done by `Polynomial.__init__`
(`while len > 1 and coefficients[-1] == 0: pop`). -/
def trimEq (l : List PyNum) : List PyNum :=
  popTrailing (fun c => decide (c.toRat = 0)) l

/-- The near-zero trim done inside `polynomial_mod`
(`while len > 1 and abs(coefficients[-1]) < 1e-10: pop`). -/
def trimEps (l : List PyNum) : List PyNum :=
  popTrailing (fun c => decide (|c.toRat| < 1/10000000000)) l

/-- `Polynomial(coefficients)`: copy the list and trim trailing zeros. -/
def Polynomial.init (coefficients : List PyNum) : Polynomial :=
  ⟨trimEq coefficients⟩

/-- `Polynomial(degree=d)`: the zero polynomial stored as `d + 1` zeros
(an empty list when `d + 1 ≤ 0`). -/
def Polynomial.zeros (d : ℤ) : Polynomial :=
  ⟨List.replicate (d + 1).toNat (PyNum.int 0)⟩

/-- `Polynomial.degree()`: number of stored coefficients minus one. -/
def Polynomial.degree (p : Polynomial) : ℤ :=
  (p.coefficients.length : ℤ) - 1

/-- `Polynomial.__getitem__`: the stored coefficient, or `0` past the end. -/
def Polynomial.getitem (p : Polynomial) (index : ℕ) : PyNum :=
  p.coefficients.getD index (PyNum.int 0)

/-- `Polynomial.__setitem__`: set in place, extending with zeros when the
index is past the end. -/
def Polynomial.setitem (p : Polynomial) (index : ℕ) (value : PyNum) : Polynomial :=
  if index < p.coefficients.length then ⟨p.coefficients.set index value⟩
  else ⟨p.coefficients ++ List.replicate (index - p.coefficients.length) (PyNum.int 0) ++ [value]⟩

/-- `Polynomial.__add__` on two polynomials (the scalar branch is unused by
the scheme): build a zero polynomial of the max degree and set each slot to
the sum of the operands' coefficients. -/
def Polynomial.add (p other : Polynomial) : Polynomial :=
  let result_degree := max p.degree other.degree
  (List.range (result_degree + 1).toNat).foldl
    (fun result i => result.setitem i (pyAdd (p.getitem i) (other.getitem i)))
    (Polynomial.zeros result_degree)

/-- `Polynomial.__sub__` on two polynomials. -/
def Polynomial.sub (p other : Polynomial) : Polynomial :=
  let result_degree := max p.degree other.degree
  (List.range (result_degree + 1).toNat).foldl
    (fun result i => result.setitem i (pySub (p.getitem i) (other.getitem i)))
    (Polynomial.zeros result_degree)

/-- `Polynomial.__neg__`: negate every coefficient and re-run the constructor
(which trims trailing zeros). -/
def Polynomial.neg (p : Polynomial) : Polynomial :=
  Polynomial.init (p.coefficients.map pyNeg)

/-- `Polynomial.__mul__` on two polynomials: schoolbook double loop
accumulating `self[i] * other[j]` into slot `i + j`. -/
def Polynomial.mul (p other : Polynomial) : Polynomial :=
  let result_degree := p.degree + other.degree
  (List.range (p.degree + 1).toNat).foldl
    (fun result i =>
      (List.range (other.degree + 1).toNat).foldl
        (fun result j =>
          result.setitem (i + j) (pyAdd (result.getitem (i + j)) (pyMul (p.getitem i) (other.getitem j))))
        result)
    (Polynomial.zeros result_degree)

/-- `Polynomial.__mod__` with an integer modulus: reduce every stored
coefficient and re-run the constructor. -/
def Polynomial.modInt (p : Polynomial) (modulus : ℤ) : Polynomial :=
  Polynomial.init (p.coefficients.map (fun c => pyModInt c modulus))

/-- `Polynomial.to_list(length)`: pad with zeros or truncate to `length`. -/
def Polynomial.to_list (p : Polynomial) (length : ℕ) : List PyNum :=
  if p.coefficients.length < length then
    p.coefficients ++ List.replicate (length - p.coefficients.length) (PyNum.int 0)
  else if length < p.coefficients.length then p.coefficients.take length
  else p.coefficients

/-- The `all(c == 0 for c in remainder.coefficients)` test of
`polynomial_mod`'s loop guard. -/
def allZero (l : List PyNum) : Bool :=
  l.all (fun c => decide (c.toRat = 0))

/-- One iteration of `polynomial_mod`'s while loop: divide the leading
coefficient of the remainder by the divisor's leading coefficient, subtract
the shifted multiple of the divisor, and trim near-zero trailing entries.
The source's in-loop re-check `if remainder_degree < divisor_degree: break`
is unreachable (the guard was just tested and nothing changed in between),
so it has no counterpart here. -/
def polyModStep (divisor remainder : Polynomial) : Polynomial :=
  let remainder_degree := remainder.degree
  let divisor_degree := divisor.degree
  let coefficient := pyDiv (remainder.getitem remainder_degree.toNat) (divisor.getitem divisor_degree.toNat)
  let exponent := (remainder_degree - divisor_degree).toNat
  let subtracted := (List.range (divisor_degree + 1).toNat).foldl
    (fun r i => r.setitem (i + exponent) (pySub (r.getitem (i + exponent)) (pyMul coefficient (divisor.getitem i))))
    remainder
  ⟨trimEps subtracted.coefficients⟩

/-- The while loop of `polynomial_mod`, with explicit fuel bounding the
number of iterations (each productive iteration strictly shortens the
remainder, so fuel equal to the initial length suffices; see
`polyModLoop_spec`). -/
def polyModLoop (divisor : Polynomial) : ℕ → Polynomial → Polynomial
  | 0, r => r
  | fuel + 1, r =>
    if divisor.degree ≤ r.degree ∧ allZero r.coefficients = false then
      polyModLoop divisor fuel (polyModStep divisor r)
    else r

/-- `polynomial_mod(dividend, divisor)`: polynomial remainder by repeated
leading-term elimination, starting from a constructor-trimmed copy of the
dividend. -/
def polynomial_mod (dividend divisor : Polynomial) : Polynomial :=
  let remainder := Polynomial.init dividend.coefficients
  polyModLoop divisor remainder.coefficients.length remainder

/-- `create_poly_mod(n)`: the polynomial `x^n + 1`. -/
def create_poly_mod (n : ℕ) : Polynomial :=
  ((Polynomial.zeros n).setitem 0 (PyNum.int 1)).setitem n (PyNum.int 1)

/-- `poly_mul_mod(a, b, mod_poly, q)`: multiply, take the polynomial
remainder, then round each stored coefficient and reduce it mod `q`. -/
def poly_mul_mod (a b mod_poly : Polynomial) (q : ℤ) : Polynomial :=
  let result := polynomial_mod (a.mul b) mod_poly
  ⟨result.coefficients.map (fun c => PyNum.int (Int.fmod (pyround c) q))⟩

/-- Numeric value of the `k`-th coefficient of a stored list (`0` past the end). -/
def co (l : List PyNum) (k : ℕ) : ℚ :=
  (l.getD k (PyNum.int 0)).toRat

/-- Every coefficient value of the list is an integer. -/
def IntCo (l : List PyNum) : Prop :=
  ∀ k, ∃ z : ℤ, co l k = (z : ℚ)

/-- Specification-side plain convolution:
`convCoeff a b k = Σ_{i+j=k} a[i]·b[j]` (indices past the end read as 0). -/
def convCoeff (a b : List ℤ) (k : ℕ) : ℤ :=
  ∑ i ∈ Finset.range (k + 1), a.getD i 0 * b.getD (k - i) 0

/-- Specification-side negacyclic coefficient:
the positive wrap minus the negative wrap. -/
def negacyclicCoeff (a b : List ℤ) (n k : ℕ) : ℤ :=
  convCoeff a b k - convCoeff a b (k + n)

/-- The entry path of `poly_mul_mod` when called with coefficient lists: the
`isinstance` coercion wraps each list in the `Polynomial` constructor. -/
def poly_mul_mod_lists (a b : List ℤ) (mod_poly : Polynomial) (q : ℤ) : Polynomial :=
  poly_mul_mod (Polynomial.init (a.map PyNum.int)) (Polynomial.init (b.map PyNum.int)) mod_poly q

/-- Python exceptions that the sampler paths can raise. `InvalidParameter`
appears in the specification's error model; no code path constructs it. -/
inductive PyError where
  | zeroDivisionError
  | invalidParameter
deriving DecidableEq, Repr

/-- `int.to_bytes(length, 'big')` for a nonnegative integer that fits. -/
def to_bytes : ℕ → ℕ → List ℕ
  | 0, _ => []
  | k + 1, r => to_bytes k (r / 256) ++ [r % 256]

/-- `int.from_bytes(bytes, 'big')`. -/
def from_bytes (bs : List ℕ) : ℕ :=
  bs.foldl (fun acc byte => acc * 256 + byte) 0

/-- `randbelow(n)` of `poly_utils.py`: `num_bytes = (n.bit_length() + 7) // 8`
bytes worth of random bits are drawn (`r`, an unbiased `8·num_bytes`-bit
value, passed in explicitly), round-tripped through big-endian bytes, and
reduced with `%`. Python's `%` raises `ZeroDivisionError` when `n = 0`. -/
def randbelow (n : ℤ) (r : ℕ) : Except PyError ℤ :=
  let num_bytes := (Nat.size n.natAbs + 7) / 8
  let r' := from_bytes (to_bytes num_bytes r)
  if n = 0 then Except.error PyError.zeroDivisionError
  else Except.ok (Int.fmod (r' : ℤ) n)

/-- `sample_uniform(n, q)`: one `randbelow` draw per coefficient; `rs i` is
the `i`-th `getrandbits` result. -/
def sample_uniform (n : ℕ) (q : ℤ) (rs : ℕ → ℕ) : Except PyError (List ℤ) :=
  (List.range n).mapM (fun i => randbelow q (rs i))

/-- `sample_error(n, q, std_dev)`: round the `i`-th `random.gauss(0, std_dev)`
draw (`gs i`, already carrying `std_dev`) and reduce it with `% q`, which
raises `ZeroDivisionError` when `q = 0` and never inspects `std_dev`. -/
def sample_error (n : ℕ) (q : ℤ) (std_dev : ℚ) (gs : ℕ → ℚ) : Except PyError (List ℤ) :=
  (List.range n).mapM (fun i =>
    if q = 0 then Except.error PyError.zeroDivisionError
    else Except.ok (Int.fmod (pyroundRat (gs i)) q))

/-- `bytes_to_bits`: for each byte, its 8 bits least-significant first. -/
def bytes_to_bits : List ℕ → List ℕ
  | [] => []
  | b :: rest => (List.range 8).map (fun i => (b >>> i) &&& 1) ++ bytes_to_bits rest

/-- `bits_to_bytes`: pack groups of 8 bits LSB-first with `byte |= bit << j`;
an incomplete trailing group is dropped (`if i + 8 > len(bits): break`). -/
def bits_to_bytes : List ℕ → List ℕ
  | b0 :: b1 :: b2 :: b3 :: b4 :: b5 :: b6 :: b7 :: rest =>
    (List.range 8).foldl
      (fun byte j => byte ||| (([b0, b1, b2, b3, b4, b5, b6, b7].getD j 0) <<< j)) 0
      :: bits_to_bytes rest
  | _ => []

/-- The state of the ambient `random` module visible to one call: the
successive `getrandbits` results and the successive `gauss` draws. -/
structure RandomState where
  randbits : ℕ → ℕ
  gauss : ℕ → ℚ

/-- `RLWECrypto.generate_keypair`: `a` uniform, `s` and `e` Gaussian,
`b = (-(a·s) - e) % q`, public key `(a, b)`, private key `s`. -/
def RLWECrypto.generate_keypair (st : RandomState) (n : ℕ) (q : ℤ) (std_dev : ℚ) :
    Except PyError ((List ℤ × List PyNum) × List ℤ) := do
  let a ← sample_uniform n q st.randbits
  let s ← sample_error n q std_dev st.gauss
  let e ← sample_error n q std_dev (fun i => st.gauss (n + i))
  let a_poly := Polynomial.init (a.map PyNum.int)
  let s_poly := Polynomial.init (s.map PyNum.int)
  let e_poly := Polynomial.init (e.map PyNum.int)
  let as_poly := poly_mul_mod a_poly s_poly (create_poly_mod n) q
  let b_poly := (Polynomial.sub (Polynomial.neg as_poly) e_poly).modInt q
  let b := b_poly.to_list n
  return ((a, b), s)

/-- `RLWECrypto.encrypt`: `r`, `e1`, `e2` Gaussian, message scaled by
`q // 2`, `c1 = (a·r + e1) % q`, `c2 = (b·r + e2 + m̃) % q`. -/
def RLWECrypto.encrypt (st : RandomState) (n : ℕ) (q : ℤ) (std_dev : ℚ)
    (public_key : List ℤ × List ℤ) (message : List ℤ) :
    Except PyError (List PyNum × List PyNum) := do
  let a := public_key.1
  let b := public_key.2
  let r ← sample_error n q std_dev st.gauss
  let e1 ← sample_error n q std_dev (fun i => st.gauss (n + i))
  let e2 ← sample_error n q std_dev (fun i => st.gauss (2 * n + i))
  let a_poly := Polynomial.init (a.map PyNum.int)
  let b_poly := Polynomial.init (b.map PyNum.int)
  let r_poly := Polynomial.init (r.map PyNum.int)
  let e1_poly := Polynomial.init (e1.map PyNum.int)
  let e2_poly := Polynomial.init (e2.map PyNum.int)
  let scaled_message := message.map (fun bit => Int.fmod (bit * Int.fdiv q 2) q)
  let scaled_message_poly := Polynomial.init (scaled_message.map PyNum.int)
  let c1_poly := ((poly_mul_mod a_poly r_poly (create_poly_mod n) q).add e1_poly).modInt q
  let c2_poly := (((poly_mul_mod b_poly r_poly (create_poly_mod n) q).add e2_poly).add
    scaled_message_poly).modInt q
  return (c1_poly.to_list n, c2_poly.to_list n)

/-- `RLWECrypto.decrypt`: `v = (c2 + c1·s) % q`, then bit `i` is 1 exactly
when `q // 4 < v[i] < 3*q // 4`. The `random` module state is in scope for
every method but this one performs no draw. -/
def RLWECrypto.decrypt (st : RandomState) (n : ℕ) (q : ℤ)
    (private_key : List ℤ) (ciphertext : List ℤ × List ℤ) : List ℤ :=
  let c1_poly := Polynomial.init (ciphertext.1.map PyNum.int)
  let c2_poly := Polynomial.init (ciphertext.2.map PyNum.int)
  let s_poly := Polynomial.init (private_key.map PyNum.int)
  let c1s_poly := poly_mul_mod c1_poly s_poly (create_poly_mod n) q
  let m_scaled_poly := (c2_poly.add c1s_poly).modInt q
  let m_scaled := m_scaled_poly.to_list n
  (List.range n).map (fun i =>
    if ((Int.fdiv q 4 : ℤ) : ℚ) < (m_scaled.getD i (PyNum.int 0)).toRat ∧
       (m_scaled.getD i (PyNum.int 0)).toRat < ((Int.fdiv (3 * q) 4 : ℤ) : ℚ) then 1 else 0)

/-- Every stored entry is a Python `int`. -/
def IntEntries (l : List PyNum) : Prop :=
  ∀ c ∈ l, ∃ z : ℤ, c = PyNum.int z

/-- Specification-side decryption intermediate: the canonical residue of
`c2[i] + (c1 * s)[i]` in the negacyclic ring. -/
def decryptValue (n : ℕ) (q : ℤ) (s c1 c2 : List ℤ) (i : ℕ) : ℤ :=
  (c2.getD i 0 + negacyclicCoeff c1 s n i) % q

instance instDecEqExcept {ε α : Type} [DecidableEq ε] [DecidableEq α] :
    DecidableEq (Except ε α)
  | .ok x, .ok y =>
    if h : x = y then .isTrue (by rw [h]) else .isFalse (fun hc => h (Except.ok.inj hc))
  | .error x, .error y =>
    if h : x = y then .isTrue (by rw [h]) else .isFalse (fun hc => h (Except.error.inj hc))
  | .ok _, .error _ => .isFalse (fun hc => Except.noConfusion hc)
  | .error _, .ok _ => .isFalse (fun hc => Except.noConfusion hc)

/-- Binary length of a natural number (`Nat.size`, CPython's
`int.bit_length`), computed by structural recursion on a fuel argument so
that it evaluates by kernel reduction; `bitLen_eq_size` below identifies it
with `Nat.size`.  `n` itself is enough fuel since `Nat.size n ≤ n`. -/
def bitLenAux : ℕ → ℕ → ℕ
  | 0, _ => 0
  | fuel + 1, n => if n = 0 then 0 else bitLenAux fuel (n / 2) + 1

def bitLen (n : ℕ) : ℕ := bitLenAux n n

/-- Greatest `k` with `2 ^ k ≤ a`, for a positive rational `a`: the binary
exponent used to place `a`'s significand.  From `a = p / q` with
`2^(sp-1) ≤ p < 2^sp` and `2^(sq-1) ≤ q < 2^sq` (bit-length bounds) the floor
logarithm is `sp - sq` or `sp - sq - 1`; one comparison decides which. -/
def floorLog2 (a : ℚ) : ℤ :=
  let k : ℤ := (bitLen a.num.natAbs : ℤ) - (bitLen a.den : ℤ)
  if (2 : ℚ) ^ k ≤ a then k else k - 1

/-- IEEE binary64 rounding: round `x` to the nearest value `m · 2^e` with a
53-bit significand `m`, ties to even (the significand is scaled into
`[2^52, 2^53)` and rounded with the same ties-to-even rule as `pyroundRat`).
The exponent range of binary64 is not modelled (no overflow or subnormals);
every value arising in the evaluated programs is far inside that range. -/
def roundDouble (x : ℚ) : ℚ :=
  if x = 0 then 0
  else
    let e : ℤ := floorLog2 |x| - 52
    let m : ℤ := pyroundRat (|x| / (2 : ℚ) ^ e)
    (if x < 0 then -1 else 1) * (m : ℚ) * (2 : ℚ) ^ e

/-- CPython's conversion of an operand to binary64: an `int` is rounded to
the nearest double; a `float` payload produced by the binary64 operations
below is already a representable double, on which `roundDouble` is the
identity. -/
def PyNum.toDouble (a : PyNum) : ℚ :=
  roundDouble a.toRat

/-- Binary64 semantics of Python's `/`: convert both operands to doubles,
divide, and round the quotient. -/
def pyDivD (a b : PyNum) : PyNum :=
  PyNum.float (roundDouble (a.toDouble / b.toDouble))

/-- Binary64 semantics of Python's `-`: exact on `int - int`; any float
operand forces a double subtraction with rounded result. -/
def pySubD (a b : PyNum) : PyNum :=
  match a, b with
  | .int x, .int y => .int (x - y)
  | _, _ => .float (roundDouble (a.toDouble - b.toDouble))

/-- Binary64 semantics of Python's `*`: exact on `int * int`; any float
operand forces a double multiplication with rounded result. -/
def pyMulD (a b : PyNum) : PyNum :=
  match a, b with
  | .int x, .int y => .int (x * y)
  | _, _ => .float (roundDouble (a.toDouble * b.toDouble))

/-- One iteration of `polynomial_mod`'s while loop under binary64 float
semantics (same structure as `polyModStep`, with the double-precision
division, multiplication and subtraction of CPython). -/
def polyModStepD (divisor remainder : Polynomial) : Polynomial :=
  let remainder_degree := remainder.degree
  let divisor_degree := divisor.degree
  let coefficient := pyDivD (remainder.getitem remainder_degree.toNat) (divisor.getitem divisor_degree.toNat)
  let exponent := (remainder_degree - divisor_degree).toNat
  let subtracted := (List.range (divisor_degree + 1).toNat).foldl
    (fun r i => r.setitem (i + exponent) (pySubD (r.getitem (i + exponent)) (pyMulD coefficient (divisor.getitem i))))
    remainder
  ⟨trimEps subtracted.coefficients⟩

/-- The while loop of `polynomial_mod` under binary64 float semantics. -/
def polyModLoopD (divisor : Polynomial) : ℕ → Polynomial → Polynomial
  | 0, r => r
  | fuel + 1, r =>
    if divisor.degree ≤ r.degree ∧ allZero r.coefficients = false then
      polyModLoopD divisor fuel (polyModStepD divisor r)
    else r

/-- `polynomial_mod` under binary64 float semantics. -/
def polynomial_modD (dividend divisor : Polynomial) : Polynomial :=
  let remainder := Polynomial.init dividend.coefficients
  polyModLoopD divisor remainder.coefficients.length remainder

/-- `poly_mul_mod` under binary64 float semantics (the schoolbook product
`a * b` is all-integer in both semantics, so `Polynomial.mul` is shared). -/
def poly_mul_modD (a b mod_poly : Polynomial) (q : ℤ) : Polynomial :=
  let result := polynomial_modD (a.mul b) mod_poly
  ⟨result.coefficients.map (fun c => PyNum.int (Int.fmod (pyround c) q))⟩

/-- The list entry path of `poly_mul_mod` under binary64 float semantics. -/
def poly_mul_mod_listsD (a b : List ℤ) (mod_poly : Polynomial) (q : ℤ) : Polynomial :=
  poly_mul_modD (Polynomial.init (a.map PyNum.int)) (Polynomial.init (b.map PyNum.int)) mod_poly q

/-- `RLWECrypto.decrypt` under binary64 float semantics: identical to
`RLWECrypto.decrypt` except that the negacyclic product `c1 * s` goes through
the double-precision pipeline (the remaining additions and reductions act on
Python ints in both semantics). -/
def RLWECrypto.decryptD (st : RandomState) (n : ℕ) (q : ℤ)
    (private_key : List ℤ) (ciphertext : List ℤ × List ℤ) : List ℤ :=
  let c1_poly := Polynomial.init (ciphertext.1.map PyNum.int)
  let c2_poly := Polynomial.init (ciphertext.2.map PyNum.int)
  let s_poly := Polynomial.init (private_key.map PyNum.int)
  let c1s_poly := poly_mul_modD c1_poly s_poly (create_poly_mod n) q
  let m_scaled_poly := (c2_poly.add c1s_poly).modInt q
  let m_scaled := m_scaled_poly.to_list n
  (List.range n).map (fun i =>
    if ((Int.fdiv q 4 : ℤ) : ℚ) < (m_scaled.getD i (PyNum.int 0)).toRat ∧
       (m_scaled.getD i (PyNum.int 0)).toRat < ((Int.fdiv (3 * q) 4 : ℤ) : ℚ) then 1 else 0)

@[simp] theorem toRat_int (z : ℤ) : (PyNum.int z).toRat = (z : ℚ) := rfl

@[simp] theorem toRat_float (x : ℚ) : (PyNum.float x).toRat = x := rfl

@[simp] theorem pyAdd_toRat (a b : PyNum) : (pyAdd a b).toRat = a.toRat + b.toRat := by
  cases a <;> cases b <;> simp [pyAdd, Int.cast_add]

@[simp] theorem pySub_toRat (a b : PyNum) : (pySub a b).toRat = a.toRat - b.toRat := by
  cases a <;> cases b <;> simp [pySub, Int.cast_sub]

@[simp] theorem pyMul_toRat (a b : PyNum) : (pyMul a b).toRat = a.toRat * b.toRat := by
  cases a <;> cases b <;> simp [pyMul, Int.cast_mul]

@[simp] theorem pyNeg_toRat (a : PyNum) : (pyNeg a).toRat = -a.toRat := by
  cases a <;> simp [pyNeg]

@[simp] theorem pyDiv_toRat (a b : PyNum) : (pyDiv a b).toRat = a.toRat / b.toRat := rfl

/-- Python `round` of an integer-valued number is that integer. -/
theorem pyround_intValue (c : PyNum) (z : ℤ) (h : c.toRat = (z : ℚ)) : pyround c = z := by
  cases c with
  | int w =>
    simp only [toRat_int] at h
    exact_mod_cast h
  | float x =>
    simp only [toRat_float] at h
    subst h
    simp only [pyround, pyroundRat]
    have hfl : ⌊(z : ℚ) + 1/2⌋ = z := by
      rw [Int.floor_eq_iff]
      constructor
      · linarith
      · linarith
    rw [hfl]
    have hne : ¬((z : ℚ) + 1/2 = (z : ℚ)) := by
      intro h; linarith
    simp [hne]

theorem co_nil (k : ℕ) : co [] k = 0 := by simp [co]

theorem co_eq_default (l : List PyNum) (k : ℕ) (h : l.length ≤ k) : co l k = 0 := by
  unfold co
  rw [List.getD_eq_default _ _ h]
  rfl

theorem co_append_left (l l' : List PyNum) (k : ℕ) (h : k < l.length) :
    co (l ++ l') k = co l k := by
  unfold co
  rw [List.getD_append _ _ _ _ h]

theorem co_append_right (l l' : List PyNum) (k : ℕ) (h : l.length ≤ k) :
    co (l ++ l') k = co l' (k - l.length) := by
  unfold co
  rw [List.getD_append_right _ _ _ _ h]

theorem co_replicate_zero (m k : ℕ) : co (List.replicate m (PyNum.int 0)) k = 0 := by
  rcases Nat.lt_or_ge k m with h | h
  · unfold co
    rw [List.getD_eq_getElem _ _ (by simpa using h)]
    simp
  · exact co_eq_default _ _ (by simpa using h)

theorem co_set (l : List PyNum) (i : ℕ) (v : PyNum) (hi : i < l.length) (k : ℕ) :
    co (l.set i v) k = if k = i then v.toRat else co l k := by
  rcases eq_or_ne k i with rfl | hk
  · unfold co
    rw [List.getD_eq_getElem _ _ (by simpa using hi)]
    simp
  · rw [if_neg hk]
    rcases Nat.lt_or_ge k l.length with h | h
    · unfold co
      rw [List.getD_eq_getElem _ _ (by simpa using h), List.getD_eq_getElem _ _ h]
      rw [List.getElem_set]
      simp [Ne.symm hk]
    · rw [co_eq_default _ _ (by simpa using h), co_eq_default _ _ h]

theorem co_map_int (l : List ℤ) (k : ℕ) :
    co (l.map PyNum.int) k = ((l.getD k 0 : ℤ) : ℚ) := by
  unfold co
  rw [List.getD_map (f := PyNum.int) (d := 0) (n := k)]
  rfl

theorem getD_map_lt {α β : Type} (f : α → β) (l : List α) (k : ℕ) (d : α) (e : β)
    (h : k < l.length) : (l.map f).getD k e = f (l.getD k d) := by
  rw [List.getD_eq_getElem _ _ (by simpa using h), List.getD_eq_getElem _ _ h, List.getElem_map]

/-! ### Trimming lemmas -/

theorem popTrailingAux_decomp (p : PyNum → Bool) :
    ∀ l : List PyNum, ∃ t, l = t ++ popTrailingAux p l ∧ ∀ c ∈ t, p c = true := by
  intro l
  induction l with
  | nil => exact ⟨[], rfl, by simp⟩
  | cons x xs ih =>
    cases xs with
    | nil => exact ⟨[], rfl, by simp⟩
    | cons y ys =>
      by_cases hx : p x = true
      · obtain ⟨t, ht, hall⟩ := ih
        refine ⟨x :: t, ?_, ?_⟩
        · simpa [popTrailingAux, hx] using congrArg (x :: ·) ht
        · intro c hc
          rcases List.mem_cons.mp hc with rfl | hc
          · exact hx
          · exact hall c hc
      · refine ⟨[], ?_, by simp⟩
        simp [popTrailingAux, hx]

theorem popTrailingAux_cons_cons (p : PyNum → Bool) (x y : PyNum) (ys : List PyNum) :
    popTrailingAux p (x :: y :: ys) =
      if p x then popTrailingAux p (y :: ys) else x :: y :: ys := rfl

theorem popTrailingAux_length_le (p : PyNum → Bool) (l : List PyNum) :
    (popTrailingAux p l).length ≤ l.length := by
  obtain ⟨t, ht, _⟩ := popTrailingAux_decomp p l
  have := congrArg List.length ht
  rw [List.length_append] at this
  omega

theorem popTrailingAux_allPred (p : PyNum → Bool) :
    ∀ l : List PyNum, (∀ c ∈ popTrailingAux p l, p c = true) → (popTrailingAux p l).length ≤ 1 := by
  intro l
  induction l with
  | nil => intro; simp [popTrailingAux]
  | cons x xs ih =>
    cases xs with
    | nil => intro; simp [popTrailingAux]
    | cons y ys =>
      intro hall
      rw [popTrailingAux_cons_cons] at hall ⊢
      by_cases hx : p x = true
      · rw [if_pos hx] at hall ⊢
        exact ih hall
      · rw [if_neg hx] at hall
        exact absurd (hall x (by simp)) hx

theorem popTrailingAux_head_pop (p : PyNum → Bool) (x y : PyNum) (ys : List PyNum)
    (hx : p x = true) :
    (popTrailingAux p (x :: y :: ys)).length ≤ ys.length + 1 := by
  rw [popTrailingAux_cons_cons, if_pos hx]
  simpa using popTrailingAux_length_le p (y :: ys)

theorem popTrailing_decomp (p : PyNum → Bool) (l : List PyNum) :
    ∃ t, l = popTrailing p l ++ t ∧ ∀ c ∈ t, p c = true := by
  obtain ⟨t, ht, hall⟩ := popTrailingAux_decomp p l.reverse
  refine ⟨t.reverse, ?_, fun c hc => hall c (List.mem_reverse.mp hc)⟩
  have := congrArg List.reverse ht
  rw [List.reverse_reverse, List.reverse_append] at this
  exact this

theorem popTrailing_length_le (p : PyNum → Bool) (l : List PyNum) :
    (popTrailing p l).length ≤ l.length := by
  unfold popTrailing
  rw [List.length_reverse]
  simpa using popTrailingAux_length_le p l.reverse

theorem popTrailing_allPred (p : PyNum → Bool) (l : List PyNum)
    (h : ∀ c ∈ popTrailing p l, p c = true) : (popTrailing p l).length ≤ 1 := by
  unfold popTrailing at h ⊢
  rw [List.length_reverse]
  exact popTrailingAux_allPred p l.reverse (fun c hc => h c (List.mem_reverse.mpr hc))

/-- When the last entry satisfies `p` and the list has at least two entries,
trimming strictly shortens the list. -/
theorem popTrailing_last_pop (p : PyNum → Bool) (l : List PyNum)
    (h2 : 2 ≤ l.length) (hlast : p (l.getLast (by intro h; rw [h] at h2; simp at h2)) = true) :
    (popTrailing p l).length + 1 ≤ l.length := by
  have hne : l ≠ [] := by intro h; rw [h] at h2; simp at h2
  obtain ⟨x, xs, hx⟩ : ∃ x xs, l.reverse = x :: xs := by
    cases hrev : l.reverse with
    | nil => exact absurd (by simpa using congrArg List.reverse hrev) hne
    | cons x xs => exact ⟨x, xs, rfl⟩
  have hxlast : x = l.getLast hne := by
    have : l.reverse.head (by simp [hx]) = x := by simp [hx]
    rw [← this, List.head_reverse]
  cases xs with
  | nil =>
    have : l.length = 1 := by
      have := congrArg List.length hx
      simpa using this
    omega
  | cons y ys =>
    unfold popTrailing
    rw [List.length_reverse, hx]
    have hpx : p x = true := by rw [hxlast]; exact hlast
    have := popTrailingAux_head_pop p x y ys hpx
    have hlen : l.length = ys.length + 2 := by
      have := congrArg List.length hx
      simpa using this
    omega

theorem popTrailing_sublist_mem (p : PyNum → Bool) (l : List PyNum) (c : PyNum)
    (hc : c ∈ popTrailing p l) : c ∈ l := by
  obtain ⟨t, ht, _⟩ := popTrailing_decomp p l
  rw [ht]
  exact List.mem_append_left _ hc

/-- Trimming does not change any coefficient value, provided every entry that
the trim predicate accepts and that has an integer value is in fact zero, and
the list is integer-valued. -/
theorem popTrailing_co (p : PyNum → Bool) (l : List PyNum)
    (hp : ∀ c : PyNum, p c = true → (∃ z : ℤ, c.toRat = (z : ℚ)) → c.toRat = 0)
    (hint : IntCo l) (k : ℕ) : co (popTrailing p l) k = co l k := by
  obtain ⟨t, ht, hall⟩ := popTrailing_decomp p l
  have hlen := congrArg List.length ht
  rw [List.length_append] at hlen
  rcases Nat.lt_or_ge k (popTrailing p l).length with h | h
  · conv_rhs => rw [ht]
    rw [co_append_left _ _ _ h]
  · rw [co_eq_default _ _ h]
    rcases Nat.lt_or_ge k l.length with h2 | h2
    · have hkt : k - (popTrailing p l).length < t.length := by omega
      have hmem : t.getD (k - (popTrailing p l).length) (PyNum.int 0) ∈ t := by
        rw [List.getD_eq_getElem _ _ hkt]
        exact List.getElem_mem hkt
      have hco : co l k = (t.getD (k - (popTrailing p l).length) (PyNum.int 0)).toRat := by
        conv_lhs => rw [ht]
        rw [co_append_right _ _ _ h]
        rfl
      have hz : ∃ z : ℤ, (t.getD (k - (popTrailing p l).length) (PyNum.int 0)).toRat = (z : ℚ) := by
        obtain ⟨z, hz⟩ := hint k
        exact ⟨z, by rw [← hco]; exact hz⟩
      rw [hco, hp _ (hall _ hmem) hz]
    · rw [co_eq_default _ _ h2]

/-- Trimming preserves integer-valuedness of coefficients. -/
theorem popTrailing_intCo (p : PyNum → Bool) (l : List PyNum)
    (hp : ∀ c : PyNum, p c = true → (∃ z : ℤ, c.toRat = (z : ℚ)) → c.toRat = 0)
    (hint : IntCo l) : IntCo (popTrailing p l) := by
  intro k
  obtain ⟨z, hz⟩ := hint k
  exact ⟨z, by rw [popTrailing_co p l hp hint k]; exact hz⟩

theorem trimEq_co (l : List PyNum) (hint : IntCo l) (k : ℕ) : co (trimEq l) k = co l k :=
  popTrailing_co _ l (by intro c hc _; simpa using hc) hint k

theorem trimEps_co (l : List PyNum) (hint : IntCo l) (k : ℕ) : co (trimEps l) k = co l k := by
  refine popTrailing_co _ l ?_ hint k
  intro c hc hz
  obtain ⟨z, hz⟩ := hz
  have habs : |c.toRat| < 1/10000000000 := by simpa using hc
  rw [hz] at habs ⊢
  have : z = 0 := by
    by_contra h0
    have : (1 : ℚ) ≤ |(z : ℚ)| := by
      rw [← Int.cast_abs]
      exact_mod_cast Int.one_le_abs (by omega)
    linarith
  simp [this]

/-! ### Fold machinery for the source's index loops -/

theorem setitem_inBounds (p : Polynomial) (i : ℕ) (v : PyNum) (h : i < p.coefficients.length) :
    (p.setitem i v).coefficients = p.coefficients.set i v := by
  rw [Polynomial.setitem, if_pos h]

/-- Effect on coefficient values of a loop
`for j in range(m): l[base+j] = F(l[base+j], j)` where `F` shifts the value by
`δ j`; all touched indices must be in bounds. -/
theorem foldl_update_co (F : PyNum → ℕ → PyNum) (δ : ℕ → ℚ)
    (hF : ∀ x j, (F x j).toRat = x.toRat + δ j) (base : ℕ) :
    ∀ (m : ℕ) (l : Polynomial), (∀ j, j < m → base + j < l.coefficients.length) →
    ((List.range m).foldl (fun acc j => acc.setitem (base + j) (F (acc.getitem (base + j)) j)) l).coefficients.length
      = l.coefficients.length ∧
    ∀ k, co ((List.range m).foldl (fun acc j => acc.setitem (base + j) (F (acc.getitem (base + j)) j)) l).coefficients k
      = co l.coefficients k + (if base ≤ k ∧ k < base + m then δ (k - base) else 0) := by
  intro m
  induction m with
  | zero =>
    intro l _
    refine ⟨rfl, fun k => ?_⟩
    have : ¬(base ≤ k ∧ k < base + 0) := by omega
    simp [this]
  | succ m ih =>
    intro l hbound
    rw [List.range_succ, List.foldl_append, List.foldl_cons, List.foldl_nil]
    set l₁ := (List.range m).foldl (fun acc j => acc.setitem (base + j) (F (acc.getitem (base + j)) j)) l with hl₁
    obtain ⟨hlen₁, hco₁⟩ := ih l (fun j hj => hbound j (by omega))
    have hbm : base + m < l₁.coefficients.length := by
      rw [hlen₁]; exact hbound m (by omega)
    have hset := setitem_inBounds l₁ (base + m) (F (l₁.getitem (base + m)) m) hbm
    constructor
    · rw [hset, List.length_set, hlen₁]
    · intro k
      rw [hset, co_set _ _ _ hbm k]
      rcases eq_or_ne k (base + m) with rfl | hk
      · rw [if_pos rfl, hF]
        have hgi : (l₁.getitem (base + m)).toRat = co l₁.coefficients (base + m) := rfl
        rw [hgi, hco₁]
        have h1 : ¬(base ≤ base + m ∧ base + m < base + m) := by omega
        have h2 : base ≤ base + m ∧ base + m < base + (m + 1) := by omega
        rw [if_neg h1, if_pos h2]
        simp
      · rw [if_neg hk, hco₁]
        rcases Nat.lt_or_ge k (base + m) with h | h
        · by_cases hbk : base ≤ k
          · have h1 : base ≤ k ∧ k < base + m := ⟨hbk, h⟩
            have h2 : base ≤ k ∧ k < base + (m + 1) := by omega
            rw [if_pos h1, if_pos h2]
          · have h1 : ¬(base ≤ k ∧ k < base + m) := by omega
            have h2 : ¬(base ≤ k ∧ k < base + (m + 1)) := by omega
            rw [if_neg h1, if_neg h2]
        · have h1 : ¬(base ≤ k ∧ k < base + m) := by omega
          have h2 : ¬(base ≤ k ∧ k < base + (m + 1)) := by omega
          rw [if_neg h1, if_neg h2]

/-- Effect of a loop `for i in range(m): l[i] = v i` (full overwrite, as in
`Polynomial.__add__` and `__sub__`). -/
theorem foldl_set_co (v : ℕ → PyNum) :
    ∀ (m : ℕ) (l : Polynomial), m ≤ l.coefficients.length →
    ((List.range m).foldl (fun acc i => acc.setitem i (v i)) l).coefficients.length
      = l.coefficients.length ∧
    ∀ k, ((List.range m).foldl (fun acc i => acc.setitem i (v i)) l).coefficients.getD k (PyNum.int 0)
      = if k < m then v k else l.coefficients.getD k (PyNum.int 0) := by
  intro m
  induction m with
  | zero =>
    intro l _
    exact ⟨rfl, fun k => by simp⟩
  | succ m ih =>
    intro l hm
    rw [List.range_succ, List.foldl_append, List.foldl_cons, List.foldl_nil]
    set l₁ := (List.range m).foldl (fun acc i => acc.setitem i (v i)) l with hl₁
    obtain ⟨hlen₁, hget₁⟩ := ih l (by omega)
    have hbm : m < l₁.coefficients.length := by rw [hlen₁]; omega
    have hset := setitem_inBounds l₁ m (v m) hbm
    constructor
    · rw [hset, List.length_set, hlen₁]
    · intro k
      rw [hset]
      rcases eq_or_ne k m with rfl | hk
      · rw [List.getD_eq_getElem _ _ (by simpa using hbm)]
        simp
      · have : (l₁.coefficients.set m (v m)).getD k (PyNum.int 0) = l₁.coefficients.getD k (PyNum.int 0) := by
          rcases Nat.lt_or_ge k l₁.coefficients.length with h | h
          · rw [List.getD_eq_getElem _ _ (by simpa using h), List.getD_eq_getElem _ _ h]
            rw [List.getElem_set, if_neg (Ne.symm hk)]
          · rw [List.getD_eq_default _ _ (by simpa using h), List.getD_eq_default _ _ h]
        rw [this, hget₁]
        rcases Nat.lt_or_ge k m with h | h
        · rw [if_pos h, if_pos (by omega)]
        · rw [if_neg (by omega), if_neg (by omega)]

/-! ### Schoolbook multiplication computes the convolution -/

theorem zeros_length (d : ℤ) : (Polynomial.zeros d).coefficients.length = (d + 1).toNat := by
  simp [Polynomial.zeros]

theorem zeros_co (d : ℤ) (k : ℕ) : co (Polynomial.zeros d).coefficients k = 0 := by
  unfold Polynomial.zeros
  exact co_replicate_zero _ _

theorem getitem_toRat (p : Polynomial) (i : ℕ) : (p.getitem i).toRat = co p.coefficients i := rfl

theorem mul_co_aux (p other : Polynomial) (lb : ℕ) :
    ∀ (m : ℕ) (z : Polynomial), (∀ i j, i < m → j < lb → i + j < z.coefficients.length) →
    ((List.range m).foldl (fun result i =>
        (List.range lb).foldl (fun result j =>
          result.setitem (i + j) (pyAdd (result.getitem (i + j)) (pyMul (p.getitem i) (other.getitem j))))
          result) z).coefficients.length = z.coefficients.length ∧
    ∀ k, co ((List.range m).foldl (fun result i =>
        (List.range lb).foldl (fun result j =>
          result.setitem (i + j) (pyAdd (result.getitem (i + j)) (pyMul (p.getitem i) (other.getitem j))))
          result) z).coefficients k
      = co z.coefficients k +
        ∑ i ∈ Finset.range m,
          (if i ≤ k ∧ k < i + lb then co p.coefficients i * co other.coefficients (k - i) else 0) := by
  intro m
  induction m with
  | zero =>
    intro z _
    exact ⟨rfl, fun k => by simp⟩
  | succ m ih =>
    intro z hbound
    rw [List.range_succ, List.foldl_append, List.foldl_cons, List.foldl_nil]
    set z₁ := (List.range m).foldl (fun result i =>
        (List.range lb).foldl (fun result j =>
          result.setitem (i + j) (pyAdd (result.getitem (i + j)) (pyMul (p.getitem i) (other.getitem j))))
          result) z with hz₁
    obtain ⟨hlen₁, hco₁⟩ := ih z (fun i j hi hj => hbound i j (by omega) hj)
    have hinner := foldl_update_co
      (fun x j => pyAdd x (pyMul (p.getitem m) (other.getitem j)))
      (fun j => co p.coefficients m * co other.coefficients j)
      (fun x j => by rw [pyAdd_toRat, pyMul_toRat, getitem_toRat, getitem_toRat])
      m lb z₁
      (fun j hj => by rw [hlen₁]; exact hbound m j (by omega) hj)
    obtain ⟨hlen₂, hco₂⟩ := hinner
    refine ⟨by rw [hlen₂, hlen₁], fun k => ?_⟩
    rw [hco₂, hco₁, Finset.sum_range_succ]
    ring

theorem degree_add_one_toNat (p : Polynomial) : (p.degree + 1).toNat = p.coefficients.length := by
  unfold Polynomial.degree
  omega

theorem mul_eq_fold (p other : Polynomial) :
    p.mul other = (List.range (p.degree + 1).toNat).foldl (fun result i =>
        (List.range (other.degree + 1).toNat).foldl (fun result j =>
          result.setitem (i + j) (pyAdd (result.getitem (i + j)) (pyMul (p.getitem i) (other.getitem j))))
          result) (Polynomial.zeros (p.degree + other.degree)) := rfl

theorem mul_co (p other : Polynomial) :
    (p.mul other).coefficients.length = (p.degree + other.degree + 1).toNat ∧
    ∀ k, co (p.mul other).coefficients k
      = ∑ i ∈ Finset.range (p.degree + 1).toNat,
          (if i ≤ k ∧ k < i + (other.degree + 1).toNat
            then co p.coefficients i * co other.coefficients (k - i) else 0) := by
  have hbound : ∀ i j, i < (p.degree + 1).toNat → j < (other.degree + 1).toNat →
      i + j < (Polynomial.zeros (p.degree + other.degree)).coefficients.length := by
    intro i j hi hj
    rw [zeros_length]
    rw [degree_add_one_toNat] at hi hj
    unfold Polynomial.degree
    omega
  obtain ⟨hlen, hco⟩ := mul_co_aux p other (other.degree + 1).toNat (p.degree + 1).toNat
    (Polynomial.zeros (p.degree + other.degree)) hbound
  rw [mul_eq_fold]
  refine ⟨by rw [hlen, zeros_length], fun k => ?_⟩
  rw [hco]
  simp [Polynomial.zeros, co_replicate_zero]

/-- The stored coefficients of a product, as the standard convolution of the
coefficient values, for nonempty operands. -/
theorem mul_co_conv (p other : Polynomial) (hp : p.coefficients ≠ [])
    (ho : other.coefficients ≠ []) (k : ℕ) :
    co (p.mul other).coefficients k
      = ∑ i ∈ Finset.range (k + 1), co p.coefficients i * co other.coefficients (k - i) := by
  obtain ⟨-, hco⟩ := mul_co p other
  rw [hco k, degree_add_one_toNat, degree_add_one_toNat]
  have hla : 1 ≤ p.coefficients.length := List.length_pos.mpr hp
  have step1 : ∑ i ∈ Finset.range p.coefficients.length,
        (if i ≤ k ∧ k < i + other.coefficients.length
          then co p.coefficients i * co other.coefficients (k - i) else 0)
      = ∑ i ∈ Finset.range p.coefficients.length,
        (if i ≤ k then co p.coefficients i * co other.coefficients (k - i) else 0) := by
    refine Finset.sum_congr rfl (fun i _ => ?_)
    by_cases h1 : i ≤ k
    · by_cases h2 : k < i + other.coefficients.length
      · rw [if_pos ⟨h1, h2⟩, if_pos h1]
      · rw [if_neg (fun hc => h2 hc.2), if_pos h1]
        rw [co_eq_default other.coefficients (k - i) (by omega), mul_zero]
    · rw [if_neg (fun hc => h1 hc.1), if_neg h1]
  have step2 : ∑ i ∈ Finset.range p.coefficients.length,
        (if i ≤ k then co p.coefficients i * co other.coefficients (k - i) else 0)
      = ∑ i ∈ Finset.range (p.coefficients.length + k + 1),
        (if i ≤ k then co p.coefficients i * co other.coefficients (k - i) else 0) := by
    refine Finset.sum_subset (Finset.range_subset.mpr (by omega)) ?_
    intro i _ hi
    rw [Finset.mem_range, not_lt] at hi
    by_cases h1 : i ≤ k
    · rw [if_pos h1, co_eq_default p.coefficients i hi, zero_mul]
    · rw [if_neg h1]
  have step3 : ∑ i ∈ Finset.range (k + 1), co p.coefficients i * co other.coefficients (k - i)
      = ∑ i ∈ Finset.range (p.coefficients.length + k + 1),
        (if i ≤ k then co p.coefficients i * co other.coefficients (k - i) else 0) := by
    rw [← Finset.sum_subset (Finset.range_subset.mpr (by omega : k + 1 ≤ p.coefficients.length + k + 1))]
    · refine Finset.sum_congr rfl (fun i hi => ?_)
      rw [Finset.mem_range] at hi
      rw [if_pos (by omega)]
    · intro i _ hi
      rw [Finset.mem_range, not_lt] at hi
      rw [if_neg (by omega)]
  rw [step1, step2, ← step3]

/-! ### The divisor `x^n + 1` and one reduction step -/

theorem create_poly_mod_length (n : ℕ) :
    (create_poly_mod n).coefficients.length = n + 1 := by
  unfold create_poly_mod
  have h0 : (0 : ℕ) < (Polynomial.zeros (n : ℤ)).coefficients.length := by
    rw [zeros_length]; omega
  rw [setitem_inBounds _ _ _ (by rw [setitem_inBounds _ _ _ h0, List.length_set, zeros_length]; omega)]
  rw [List.length_set, setitem_inBounds _ _ _ h0, List.length_set, zeros_length]
  omega

theorem create_poly_mod_degree (n : ℕ) : (create_poly_mod n).degree = (n : ℤ) := by
  unfold Polynomial.degree
  rw [create_poly_mod_length]
  push_cast
  ring

theorem create_poly_mod_co (n : ℕ) (hn : 1 ≤ n) (i : ℕ) :
    co (create_poly_mod n).coefficients i = if i = 0 ∨ i = n then 1 else 0 := by
  unfold create_poly_mod
  have h0 : (0 : ℕ) < (Polynomial.zeros (n : ℤ)).coefficients.length := by
    rw [zeros_length]; omega
  have h1 : (n : ℕ) < ((Polynomial.zeros (n : ℤ)).coefficients.set 0 (PyNum.int 1)).length := by
    rw [List.length_set, zeros_length]; omega
  rw [setitem_inBounds _ _ _ (by rw [setitem_inBounds _ _ _ h0]; exact h1)]
  rw [setitem_inBounds _ _ _ h0]
  rw [co_set _ _ _ h1 i]
  rcases eq_or_ne i n with rfl | hin
  · rw [if_pos rfl, if_pos (Or.inr rfl)]
    rfl
  · rw [if_neg hin, co_set _ _ _ h0 i]
    rcases eq_or_ne i 0 with rfl | hi0
    · rw [if_pos rfl, if_pos (Or.inl rfl)]
      rfl
    · rw [if_neg hi0, if_neg (by tauto)]
      exact zeros_co _ _

theorem create_poly_mod_leading (n : ℕ) (hn : 1 ≤ n) :
    co (create_poly_mod n).coefficients n = 1 := by
  rw [create_poly_mod_co n hn n, if_pos (Or.inr rfl)]

theorem allZero_length_trimEps (l : List PyNum) (h : allZero (trimEps l) = true) :
    (trimEps l).length ≤ 1 := by
  refine popTrailing_allPred _ l (fun c hc => ?_)
  have hz := (List.all_eq_true.mp h) c hc
  rw [decide_eq_true_eq] at hz
  rw [decide_eq_true_eq, hz]
  norm_num

theorem allZero_length_trimEq (l : List PyNum) (h : allZero (trimEq l) = true) :
    (trimEq l).length ≤ 1 := by
  refine popTrailing_allPred _ l (fun c hc => ?_)
  exact (List.all_eq_true.mp h) c hc

theorem polyModStep_spec (n : ℕ) (hn : 1 ≤ n) (r : Polynomial)
    (hlen : n + 1 ≤ r.coefficients.length) (hlen2 : r.coefficients.length ≤ 2 * n)
    (hint : IntCo r.coefficients) :
    (polyModStep (create_poly_mod n) r).coefficients.length + 1 ≤ r.coefficients.length ∧
    IntCo (polyModStep (create_poly_mod n) r).coefficients ∧
    ∀ k, k < n →
      co (polyModStep (create_poly_mod n) r).coefficients k
        - co (polyModStep (create_poly_mod n) r).coefficients (k + n)
      = co r.coefficients k - co r.coefficients (k + n) := by
  obtain ⟨d, hd⟩ : ∃ d, r.coefficients.length = d + 1 := ⟨r.coefficients.length - 1, by omega⟩
  have hdn : n ≤ d := by omega
  have hrdeg : r.degree = (d : ℤ) := by unfold Polynomial.degree; rw [hd]; push_cast; ring
  have hddeg : (create_poly_mod n).degree = (n : ℤ) := create_poly_mod_degree n
  have hexp : (r.degree - (create_poly_mod n).degree).toNat = d - n := by
    rw [hrdeg, hddeg]; omega
  have hm : ((create_poly_mod n).degree + 1).toNat = n + 1 := by rw [hddeg]; omega
  -- the quotient coefficient: leading of r over leading of the divisor
  set c := pyDiv (r.getitem r.degree.toNat) ((create_poly_mod n).getitem (create_poly_mod n).degree.toNat) with hc
  have hcval : c.toRat = co r.coefficients d := by
    rw [hc, pyDiv_toRat, getitem_toRat, getitem_toRat]
    have h1 : r.degree.toNat = d := by rw [hrdeg]; simp
    have h2 : ((create_poly_mod n).degree.toNat) = n := by rw [hddeg]; simp
    rw [h1, h2, create_poly_mod_leading n hn, div_one]
  obtain ⟨zc, hzc⟩ := hint d
  -- the subtraction loop, in the index order of `foldl_update_co`
  obtain ⟨hslen, hsco⟩ := foldl_update_co
    (fun x i => pySub x (pyMul c ((create_poly_mod n).getitem i)))
    (fun i => -(c.toRat * co (create_poly_mod n).coefficients i))
    (fun x i => by rw [pySub_toRat, pyMul_toRat, getitem_toRat]; ring)
    (d - n) (n + 1) r
    (fun j hj => by rw [hd]; omega)
  -- the same loop in the index order of the source (`i + exponent`)
  set subtracted := (List.range (n + 1)).foldl
    (fun acc j => acc.setitem (j + (d - n))
      (pySub (acc.getitem (j + (d - n))) (pyMul c ((create_poly_mod n).getitem j)))) r with hsub
  have hcomm : subtracted = (List.range (n + 1)).foldl
      (fun acc j => acc.setitem ((d - n) + j)
        (pySub (acc.getitem ((d - n) + j)) (pyMul c ((create_poly_mod n).getitem j)))) r := by
    rw [hsub]
    congr 1
    funext acc j
    rw [Nat.add_comm j (d - n)]
  rw [← hcomm] at hslen hsco
  have hsco' : ∀ k, co subtracted.coefficients k
      = co r.coefficients k - c.toRat * (if k = d - n ∨ k = d then 1 else 0) := by
    intro k
    have h := hsco k
    simp only at h
    rw [h]
    by_cases hwin : d - n ≤ k ∧ k < (d - n) + (n + 1)
    · rw [if_pos hwin, create_poly_mod_co n hn (k - (d - n))]
      have heq : (k - (d - n) = 0 ∨ k - (d - n) = n) ↔ (k = d - n ∨ k = d) := by omega
      by_cases hk : k = d - n ∨ k = d
      · rw [if_pos (heq.mpr hk), if_pos hk]
        ring
      · rw [if_neg (fun hcon => hk (heq.mp hcon)), if_neg hk]
        ring
    · rw [if_neg hwin]
      have h0 : ¬(k = d - n ∨ k = d) := by omega
      rw [if_neg h0]
      ring
  have hsubInt : IntCo subtracted.coefficients := by
    intro k
    obtain ⟨z, hz⟩ := hint k
    rw [hsco' k, hz, hcval, hzc]
    by_cases h : k = d - n ∨ k = d
    · exact ⟨z - zc, by rw [if_pos h]; push_cast; ring⟩
    · exact ⟨z, by rw [if_neg h]; ring⟩
  have hstep : polyModStep (create_poly_mod n) r = ⟨trimEps subtracted.coefficients⟩ := by
    rw [hsub]
    simp only [polyModStep]
    rw [hm, hexp]
  have htrimco : ∀ k, co (polyModStep (create_poly_mod n) r).coefficients k
      = co subtracted.coefficients k := by
    intro k
    rw [hstep]
    exact trimEps_co subtracted.coefficients hsubInt k
  have hlast0 : co subtracted.coefficients d = 0 := by
    rw [hsco' d, if_pos (Or.inr rfl), hcval]
    ring
  refine ⟨?_, ?_, ?_⟩
  · -- the top coefficient becomes exactly zero and is trimmed away
    rw [hstep]
    have hne : subtracted.coefficients ≠ [] := by
      intro h
      rw [h] at hslen
      simp at hslen
      omega
    have h2 : 2 ≤ subtracted.coefficients.length := by rw [hslen, hd]; omega
    have hlastmem : subtracted.coefficients.getLast hne
        = subtracted.coefficients.getD d (PyNum.int 0) := by
      rw [List.getLast_eq_getElem, List.getD_eq_getElem _ _ (by rw [hslen, hd]; omega)]
      congr 1
      rw [hslen, hd]
      omega
    have hplast : (fun cc : PyNum => decide (|cc.toRat| < 1/10000000000))
        (subtracted.coefficients.getLast hne) = true := by
      rw [hlastmem]
      have h0 : (subtracted.coefficients.getD d (PyNum.int 0)).toRat = 0 := hlast0
      rw [decide_eq_true_eq, h0]
      norm_num
    have hpop := popTrailing_last_pop (fun cc : PyNum => decide (|cc.toRat| < 1/10000000000))
      subtracted.coefficients h2 hplast
    unfold trimEps
    rw [hslen] at hpop
    exact hpop
  · rw [hstep]
    exact popTrailing_intCo _ _ (fun cc hcc hz => by
      obtain ⟨z, hzz⟩ := hz
      rw [decide_eq_true_eq] at hcc
      rw [hzz] at hcc ⊢
      have hz0 : z = 0 := by
        by_contra h0
        have : (1 : ℚ) ≤ |(z : ℚ)| := by
          rw [← Int.cast_abs]
          exact_mod_cast Int.one_le_abs (by omega)
        linarith
      simp [hz0]) hsubInt
  · intro k hk
    rw [htrimco k, htrimco (k + n), hsco' k, hsco' (k + n)]
    by_cases hkdn : k = d - n
    · by_cases hkd : k + n = d
      · rw [if_pos (Or.inl hkdn), if_pos (Or.inr hkd), hcval]
        ring
      · exfalso
        omega
    · have h1 : ¬(k = d - n ∨ k = d) := by omega
      have h2 : ¬(k + n = d - n ∨ k + n = d) := by omega
      rw [if_neg h1, if_neg h2]
      ring

/-! ### The reduction loop and `polynomial_mod` against `x^n + 1` -/

theorem polyModLoop_spec (n : ℕ) (hn : 1 ≤ n) :
    ∀ (fuel : ℕ) (r : Polynomial), r.coefficients.length ≤ fuel →
    r.coefficients.length ≤ 2 * n → IntCo r.coefficients →
    (allZero r.coefficients = true → r.coefficients.length ≤ 1) →
    (polyModLoop (create_poly_mod n) fuel r).coefficients.length ≤ n ∧
    IntCo (polyModLoop (create_poly_mod n) fuel r).coefficients ∧
    ∀ k, k < n →
      co (polyModLoop (create_poly_mod n) fuel r).coefficients k
        = co r.coefficients k - co r.coefficients (k + n) := by
  intro fuel
  induction fuel with
  | zero =>
    intro r hfuel hlen2 hint hzero
    have hnil : r.coefficients.length = 0 := by omega
    refine ⟨by rw [polyModLoop]; omega, by rw [polyModLoop]; exact hint, fun k hk => ?_⟩
    rw [polyModLoop, co_eq_default r.coefficients k (by omega),
      co_eq_default r.coefficients (k + n) (by omega)]
    ring
  | succ fuel ih =>
    intro r hfuel hlen2 hint hzero
    rw [polyModLoop]
    by_cases hguard : (create_poly_mod n).degree ≤ r.degree ∧ allZero r.coefficients = false
    · rw [if_pos hguard]
      have hlenr : n + 1 ≤ r.coefficients.length := by
        have := hguard.1
        rw [create_poly_mod_degree] at this
        unfold Polynomial.degree at this
        omega
      obtain ⟨hs1, hs2, hs3⟩ := polyModStep_spec n hn r hlenr hlen2 hint
      have hzero' : allZero (polyModStep (create_poly_mod n) r).coefficients = true →
          (polyModStep (create_poly_mod n) r).coefficients.length ≤ 1 := by
        intro hz
        have hstep : (polyModStep (create_poly_mod n) r).coefficients
            = trimEps ((List.range (((create_poly_mod n).degree + 1)).toNat).foldl
              (fun rr i => rr.setitem (i + (r.degree - (create_poly_mod n).degree).toNat)
                (pySub (rr.getitem (i + (r.degree - (create_poly_mod n).degree).toNat))
                  (pyMul (pyDiv (r.getitem r.degree.toNat)
                    ((create_poly_mod n).getitem (create_poly_mod n).degree.toNat))
                    ((create_poly_mod n).getitem i)))) r).coefficients := rfl
        rw [hstep] at hz ⊢
        exact allZero_length_trimEps _ hz
      obtain ⟨hl, hi, hf⟩ := ih (polyModStep (create_poly_mod n) r)
        (by omega) (by omega) hs2 hzero'
      refine ⟨hl, hi, fun k hk => ?_⟩
      rw [hf k hk, hs3 k hk]
    · rw [if_neg hguard]
      have hcase : r.coefficients.length ≤ n := by
        by_cases hz : allZero r.coefficients = true
        · have := hzero hz
          omega
        · have hdeg : ¬((create_poly_mod n).degree ≤ r.degree) := by
            intro hcontra
            exact hguard ⟨hcontra, by revert hz; cases allZero r.coefficients <;> simp⟩
          rw [create_poly_mod_degree] at hdeg
          unfold Polynomial.degree at hdeg
          omega
      refine ⟨hcase, hint, fun k hk => ?_⟩
      rw [co_eq_default _ (k + n) (by omega)]
      ring

/-- For a dividend of length at most `2n` with integer coefficient values,
`polynomial_mod` by `x^n + 1` returns at most `n` coefficients whose values
realize the single-pass negacyclic reduction
`result[k] = dividend[k] - dividend[k + n]`. -/
theorem polynomial_mod_spec (n : ℕ) (hn : 1 ≤ n) (dividend : Polynomial)
    (hlen : dividend.coefficients.length ≤ 2 * n) (hint : IntCo dividend.coefficients) :
    (polynomial_mod dividend (create_poly_mod n)).coefficients.length ≤ n ∧
    IntCo (polynomial_mod dividend (create_poly_mod n)).coefficients ∧
    ∀ k, k < n →
      co (polynomial_mod dividend (create_poly_mod n)).coefficients k
        = co dividend.coefficients k - co dividend.coefficients (k + n) := by
  have hco0 : ∀ k, co (Polynomial.init dividend.coefficients).coefficients k
      = co dividend.coefficients k := by
    intro k
    unfold Polynomial.init
    exact trimEq_co dividend.coefficients hint k
  have hint0 : IntCo (Polynomial.init dividend.coefficients).coefficients := by
    intro k
    obtain ⟨z, hz⟩ := hint k
    exact ⟨z, by rw [hco0 k]; exact hz⟩
  have hlen0 : (Polynomial.init dividend.coefficients).coefficients.length
      ≤ dividend.coefficients.length := popTrailing_length_le _ _
  have hzero0 : allZero (Polynomial.init dividend.coefficients).coefficients = true →
      (Polynomial.init dividend.coefficients).coefficients.length ≤ 1 := by
    intro hz
    exact allZero_length_trimEq _ hz
  obtain ⟨hl, hi, hf⟩ := polyModLoop_spec n hn
    (Polynomial.init dividend.coefficients).coefficients.length
    (Polynomial.init dividend.coefficients) le_rfl (by omega) hint0 hzero0
  refine ⟨hl, hi, fun k hk => ?_⟩
  have := hf k hk
  rw [hco0 k, hco0 (k + n)] at this
  exact this

theorem popTrailingAux_ne_nil (p : PyNum → Bool) :
    ∀ l : List PyNum, l ≠ [] → popTrailingAux p l ≠ [] := by
  intro l
  induction l with
  | nil => intro h; exact absurd rfl h
  | cons x xs ih =>
    intro _
    cases xs with
    | nil => simp [popTrailingAux]
    | cons y ys =>
      rw [popTrailingAux_cons_cons]
      by_cases hx : p x = true
      · rw [if_pos hx]
        exact ih (by simp)
      · rw [if_neg hx]
        simp

theorem popTrailing_ne_nil (p : PyNum → Bool) (l : List PyNum) (h : l ≠ []) :
    popTrailing p l ≠ [] := by
  unfold popTrailing
  intro hcon
  have := congrArg List.reverse hcon
  rw [List.reverse_reverse] at this
  exact popTrailingAux_ne_nil p l.reverse (by simpa using h) (by simpa using this)

theorem ofIntList_co (l : List ℤ) (k : ℕ) :
    co (Polynomial.init (l.map PyNum.int)).coefficients k = ((l.getD k 0 : ℤ) : ℚ) := by
  unfold Polynomial.init
  rw [trimEq_co _ (fun j => ⟨l.getD j 0, co_map_int l j⟩) k]
  exact co_map_int l k

theorem ofIntList_intCo (l : List ℤ) : IntCo (Polynomial.init (l.map PyNum.int)).coefficients :=
  fun k => ⟨l.getD k 0, ofIntList_co l k⟩

theorem ofIntList_length_le (l : List ℤ) :
    (Polynomial.init (l.map PyNum.int)).coefficients.length ≤ l.length := by
  unfold Polynomial.init
  have := popTrailing_length_le (fun c => decide (c.toRat = 0)) (l.map PyNum.int)
  rw [List.length_map] at this
  exact this

theorem ofIntList_ne_nil (l : List ℤ) (h : l ≠ []) :
    (Polynomial.init (l.map PyNum.int)).coefficients ≠ [] := by
  unfold Polynomial.init
  exact popTrailing_ne_nil _ _ (by simpa using h)

theorem mul_int_lists (a b : List ℤ) (ha : a ≠ []) (hb : b ≠ []) :
    ((Polynomial.init (a.map PyNum.int)).mul (Polynomial.init (b.map PyNum.int))).coefficients.length + 1
      ≤ a.length + b.length ∧
    IntCo ((Polynomial.init (a.map PyNum.int)).mul (Polynomial.init (b.map PyNum.int))).coefficients ∧
    ∀ k, co ((Polynomial.init (a.map PyNum.int)).mul (Polynomial.init (b.map PyNum.int))).coefficients k
      = ((convCoeff a b k : ℤ) : ℚ) := by
  set pa := Polynomial.init (a.map PyNum.int) with hpa
  set pb := Polynomial.init (b.map PyNum.int) with hpb
  have hA : pa.coefficients ≠ [] := ofIntList_ne_nil a ha
  have hB : pb.coefficients ≠ [] := ofIntList_ne_nil b hb
  have hA1 : 1 ≤ pa.coefficients.length := List.length_pos.mpr hA
  have hB1 : 1 ≤ pb.coefficients.length := List.length_pos.mpr hB
  have hALen : pa.coefficients.length ≤ a.length := ofIntList_length_le a
  have hBLen : pb.coefficients.length ≤ b.length := ofIntList_length_le b
  have hconv : ∀ k, co (pa.mul pb).coefficients k = ((convCoeff a b k : ℤ) : ℚ) := by
    intro k
    rw [mul_co_conv pa pb hA hB k]
    unfold convCoeff
    push_cast
    refine Finset.sum_congr rfl (fun i _ => ?_)
    rw [hpa, hpb, ofIntList_co, ofIntList_co]
  refine ⟨?_, fun k => ⟨convCoeff a b k, hconv k⟩, hconv⟩
  obtain ⟨hlen, -⟩ := mul_co pa pb
  rw [hlen]
  unfold Polynomial.degree
  omega

/-- Workhorse for the negacyclic multiplication claims: on length-`n` integer
coefficient lists, `poly_mul_mod` against `x^n + 1` computes, at every
position `k < n`, the Python-canonical residue of the negacyclic
coefficient. -/
theorem poly_mul_mod_lists_spec (n : ℕ) (hn : 1 ≤ n) (q : ℤ) (hq : 0 < q)
    (a b : List ℤ) (ha : a.length = n) (hb : b.length = n) :
    ∀ k, k < n →
      (poly_mul_mod_lists a b (create_poly_mod n) q).getitem k
        = PyNum.int (negacyclicCoeff a b n k % q) := by
  intro k hk
  have hane : a ≠ [] := by intro h; rw [h] at ha; simp at ha; omega
  have hbne : b ≠ [] := by intro h; rw [h] at hb; simp at hb; omega
  obtain ⟨hPlen, hPint, hPco⟩ := mul_int_lists a b hane hbne
  set P := (Polynomial.init (a.map PyNum.int)).mul (Polynomial.init (b.map PyNum.int)) with hP
  have hP2n : P.coefficients.length ≤ 2 * n := by omega
  obtain ⟨hRlen, hRint, hRco⟩ := polynomial_mod_spec n hn P hP2n hPint
  set R := polynomial_mod P (create_poly_mod n) with hR
  have hRval : ∀ j, j < n → co R.coefficients j = ((negacyclicCoeff a b n j : ℤ) : ℚ) := by
    intro j hj
    rw [hRco j hj, hPco j, hPco (j + n)]
    unfold negacyclicCoeff
    push_cast
    ring
  have hcoeffs : (poly_mul_mod_lists a b (create_poly_mod n) q).coefficients
      = R.coefficients.map (fun c => PyNum.int (Int.fmod (pyround c) q)) := rfl
  unfold Polynomial.getitem
  rw [hcoeffs]
  rcases Nat.lt_or_ge k R.coefficients.length with hkR | hkR
  · rw [getD_map_lt _ _ _ (PyNum.int 0) _ hkR]
    have hval : (R.coefficients.getD k (PyNum.int 0)).toRat
        = ((negacyclicCoeff a b n k : ℤ) : ℚ) := by
      rw [← hRval k hk]
      rfl
    rw [pyround_intValue _ _ hval, Int.fmod_eq_emod _ (le_of_lt hq)]
  · rw [List.getD_eq_default _ _ (by rw [List.length_map]; exact hkR)]
    have h0 : ((negacyclicCoeff a b n k : ℤ) : ℚ) = 0 := by
      rw [← hRval k hk, co_eq_default _ _ hkR]
    have : negacyclicCoeff a b n k = 0 := by exact_mod_cast h0
    rw [this, Int.zero_emod]

theorem IntEntries.intCo (l : List PyNum) (h : IntEntries l) : IntCo l := by
  intro k
  rcases Nat.lt_or_ge k l.length with hk | hk
  · have hmem : l.getD k (PyNum.int 0) ∈ l := by
      rw [List.getD_eq_getElem _ _ hk]
      exact List.getElem_mem hk
    obtain ⟨z, hz⟩ := h _ hmem
    exact ⟨z, by unfold co; rw [hz]; rfl⟩
  · exact ⟨0, by rw [co_eq_default _ _ hk]; simp⟩

theorem IntEntries_map_int (l : List ℤ) : IntEntries (l.map PyNum.int) := by
  intro c hc
  obtain ⟨z, -, hz⟩ := List.mem_map.mp hc
  exact ⟨z, hz.symm⟩

theorem IntEntries_popTrailing (p : PyNum → Bool) (l : List PyNum) (h : IntEntries l) :
    IntEntries (popTrailing p l) :=
  fun c hc => h c (popTrailing_sublist_mem p l c hc)

theorem IntEntries_init_map_int (l : List ℤ) :
    IntEntries (Polynomial.init (l.map PyNum.int)).coefficients :=
  IntEntries_popTrailing _ _ (IntEntries_map_int l)

theorem getitem_of_intEntries (p : Polynomial) (h : IntEntries p.coefficients) (k : ℕ) :
    ∃ z : ℤ, p.getitem k = PyNum.int z := by
  unfold Polynomial.getitem
  rcases Nat.lt_or_ge k p.coefficients.length with hk | hk
  · have hmem : p.coefficients.getD k (PyNum.int 0) ∈ p.coefficients := by
      rw [List.getD_eq_getElem _ _ hk]
      exact List.getElem_mem hk
    exact h _ hmem
  · exact ⟨0, by rw [List.getD_eq_default _ _ hk]⟩

theorem getD_replicate_int0 (m k : ℕ) :
    (List.replicate m (PyNum.int 0)).getD k (PyNum.int 0) = PyNum.int 0 := by
  rcases Nat.lt_or_ge k m with h | h
  · rw [List.getD_eq_getElem _ _ (by simpa using h)]
    simp
  · rw [List.getD_eq_default _ _ (by simpa using h)]

theorem add_length (p other : Polynomial) :
    (p.add other).coefficients.length = (max p.degree other.degree + 1).toNat := by
  obtain ⟨hlen, -⟩ := foldl_set_co (fun i => pyAdd (p.getitem i) (other.getitem i))
    (max p.degree other.degree + 1).toNat (Polynomial.zeros (max p.degree other.degree))
    (by rw [zeros_length])
  rw [Polynomial.add, hlen, zeros_length]

theorem add_getD (p other : Polynomial) (k : ℕ) :
    (p.add other).coefficients.getD k (PyNum.int 0)
      = if k < (max p.degree other.degree + 1).toNat
        then pyAdd (p.getitem k) (other.getitem k) else PyNum.int 0 := by
  obtain ⟨-, hget⟩ := foldl_set_co (fun i => pyAdd (p.getitem i) (other.getitem i))
    (max p.degree other.degree + 1).toNat (Polynomial.zeros (max p.degree other.degree))
    (by rw [zeros_length])
  rw [Polynomial.add, hget k]
  rcases Nat.lt_or_ge k (max p.degree other.degree + 1).toNat with h | h
  · rw [if_pos h, if_pos h]
  · rw [if_neg (by omega), if_neg (by omega)]
    exact getD_replicate_int0 _ _

theorem sub_length (p other : Polynomial) :
    (p.sub other).coefficients.length = (max p.degree other.degree + 1).toNat := by
  obtain ⟨hlen, -⟩ := foldl_set_co (fun i => pySub (p.getitem i) (other.getitem i))
    (max p.degree other.degree + 1).toNat (Polynomial.zeros (max p.degree other.degree))
    (by rw [zeros_length])
  rw [Polynomial.sub, hlen, zeros_length]

theorem sub_getD (p other : Polynomial) (k : ℕ) :
    (p.sub other).coefficients.getD k (PyNum.int 0)
      = if k < (max p.degree other.degree + 1).toNat
        then pySub (p.getitem k) (other.getitem k) else PyNum.int 0 := by
  obtain ⟨-, hget⟩ := foldl_set_co (fun i => pySub (p.getitem i) (other.getitem i))
    (max p.degree other.degree + 1).toNat (Polynomial.zeros (max p.degree other.degree))
    (by rw [zeros_length])
  rw [Polynomial.sub, hget k]
  rcases Nat.lt_or_ge k (max p.degree other.degree + 1).toNat with h | h
  · rw [if_pos h, if_pos h]
  · rw [if_neg (by omega), if_neg (by omega)]
    exact getD_replicate_int0 _ _

theorem max_degree_toNat (p other : Polynomial) :
    (max p.degree other.degree + 1).toNat = max p.coefficients.length other.coefficients.length := by
  unfold Polynomial.degree
  omega

theorem add_co (p other : Polynomial) (k : ℕ) :
    co (p.add other).coefficients k = co p.coefficients k + co other.coefficients k := by
  unfold co
  rw [add_getD p other k]
  rcases Nat.lt_or_ge k (max p.degree other.degree + 1).toNat with h | h
  · rw [if_pos h, pyAdd_toRat, getitem_toRat, getitem_toRat]
    rfl
  · rw [if_neg (by omega)]
    rw [max_degree_toNat] at h
    have h1 : (p.coefficients.getD k (PyNum.int 0)).toRat = 0 :=
      co_eq_default p.coefficients k (by omega)
    have h2 : (other.coefficients.getD k (PyNum.int 0)).toRat = 0 :=
      co_eq_default other.coefficients k (by omega)
    rw [h1, h2]
    simp

theorem IntEntries_add (p other : Polynomial) (hp : IntEntries p.coefficients)
    (ho : IntEntries other.coefficients) : IntEntries (p.add other).coefficients := by
  intro c hc
  obtain ⟨k, hk, hck⟩ := List.mem_iff_getElem.mp hc
  have : c = (p.add other).coefficients.getD k (PyNum.int 0) := by
    rw [List.getD_eq_getElem _ _ hk, hck]
  rw [this, add_getD]
  rcases Nat.lt_or_ge k (max p.degree other.degree + 1).toNat with h | h
  · rw [if_pos h]
    obtain ⟨z1, hz1⟩ := getitem_of_intEntries p hp k
    obtain ⟨z2, hz2⟩ := getitem_of_intEntries other ho k
    rw [hz1, hz2]
    exact ⟨z1 + z2, rfl⟩
  · rw [if_neg (by omega)]
    exact ⟨0, rfl⟩

theorem IntEntries_sub (p other : Polynomial) (hp : IntEntries p.coefficients)
    (ho : IntEntries other.coefficients) : IntEntries (p.sub other).coefficients := by
  intro c hc
  obtain ⟨k, hk, hck⟩ := List.mem_iff_getElem.mp hc
  have : c = (p.sub other).coefficients.getD k (PyNum.int 0) := by
    rw [List.getD_eq_getElem _ _ hk, hck]
  rw [this, sub_getD]
  rcases Nat.lt_or_ge k (max p.degree other.degree + 1).toNat with h | h
  · rw [if_pos h]
    obtain ⟨z1, hz1⟩ := getitem_of_intEntries p hp k
    obtain ⟨z2, hz2⟩ := getitem_of_intEntries other ho k
    rw [hz1, hz2]
    exact ⟨z1 - z2, rfl⟩
  · rw [if_neg (by omega)]
    exact ⟨0, rfl⟩

theorem IntEntries_neg (p : Polynomial) (hp : IntEntries p.coefficients) :
    IntEntries (p.neg).coefficients := by
  refine IntEntries_popTrailing _ _ (fun c hc => ?_)
  obtain ⟨c', hc', hcc⟩ := List.mem_map.mp hc
  obtain ⟨z, hz⟩ := hp c' hc'
  exact ⟨-z, by rw [← hcc, hz]; rfl⟩

theorem IntEntries_poly_mul_mod (a b mod_poly : Polynomial) (q : ℤ) :
    IntEntries (poly_mul_mod a b mod_poly q).coefficients := by
  intro c hc
  obtain ⟨c', -, hcc⟩ := List.mem_map.mp hc
  exact ⟨Int.fmod (pyround c') q, hcc.symm⟩

theorem IntEntries_modInt (p : Polynomial) (q : ℤ) (hp : IntEntries p.coefficients) :
    IntEntries ((p.modInt q)).coefficients := by
  refine IntEntries_popTrailing _ _ (fun c hc => ?_)
  obtain ⟨c', hc', hcc⟩ := List.mem_map.mp hc
  obtain ⟨z, hz⟩ := hp c' hc'
  exact ⟨Int.fmod z q, by rw [← hcc, hz]; rfl⟩

theorem modInt_entries_bounds (p : Polynomial) (q : ℤ) (hq : 0 < q)
    (hp : IntEntries p.coefficients) :
    ∀ c ∈ (p.modInt q).coefficients, ∃ z : ℤ, c = PyNum.int z ∧ 0 ≤ z ∧ z < q := by
  intro c hc
  have hc' := popTrailing_sublist_mem _ _ c hc
  obtain ⟨c'', hc'', hcc⟩ := List.mem_map.mp hc'
  obtain ⟨z, hz⟩ := hp c'' hc''
  refine ⟨Int.fmod z q, ?_, Int.fmod_nonneg' z hq, Int.fmod_lt_of_pos z hq⟩
  rw [← hcc, hz]
  rfl

theorem to_list_length (p : Polynomial) (n : ℕ) : (p.to_list n).length = n := by
  unfold Polynomial.to_list
  rcases Nat.lt_trichotomy p.coefficients.length n with h | h | h
  · rw [if_pos h]
    simp
    omega
  · rw [if_neg (by omega), if_neg (by omega)]
    omega
  · rw [if_neg (by omega), if_pos h]
    simp
    omega

theorem to_list_mem (p : Polynomial) (n : ℕ) (c : PyNum) (hc : c ∈ p.to_list n) :
    c ∈ p.coefficients ∨ c = PyNum.int 0 := by
  unfold Polynomial.to_list at hc
  rcases Nat.lt_trichotomy p.coefficients.length n with h | h | h
  · rw [if_pos h] at hc
    rcases List.mem_append.mp hc with h1 | h1
    · exact Or.inl h1
    · exact Or.inr (List.eq_of_mem_replicate h1)
  · rw [if_neg (by omega), if_neg (by omega)] at hc
    exact Or.inl hc
  · rw [if_neg (by omega), if_pos h] at hc
    exact Or.inl (List.mem_of_mem_take hc)

theorem to_list_co (p : Polynomial) (n : ℕ) (i : ℕ) (hi : i < n) :
    co (p.to_list n) i = co p.coefficients i := by
  unfold Polynomial.to_list
  rcases Nat.lt_trichotomy p.coefficients.length n with h | h | h
  · rw [if_pos h]
    rcases Nat.lt_or_ge i p.coefficients.length with h1 | h1
    · exact co_append_left _ _ _ h1
    · rw [co_append_right _ _ _ h1, co_eq_default _ _ h1]
      unfold co
      rw [getD_replicate_int0]
      rfl
  · rw [if_neg (by omega), if_neg (by omega)]
  · rw [if_neg (by omega), if_pos h]
    unfold co
    rw [List.getD_eq_getElem _ _ (by simp; omega), List.getD_eq_getElem _ _ (by omega)]
    rw [List.getElem_take]

theorem modInt_co (p : Polynomial) (q : ℤ) (hp : IntEntries p.coefficients) (k : ℕ)
    (z : ℤ) (hz : co p.coefficients k = (z : ℚ)) :
    co (p.modInt q).coefficients k = ((Int.fmod z q : ℤ) : ℚ) := by
  have hmapIE : IntEntries (p.coefficients.map (fun c => pyModInt c q)) := by
    intro c hc
    obtain ⟨c', hc', hcc⟩ := List.mem_map.mp hc
    obtain ⟨w, hw⟩ := hp c' hc'
    exact ⟨Int.fmod w q, by rw [← hcc, hw]; rfl⟩
  have h1 : co ((p.modInt q)).coefficients k
      = co (p.coefficients.map (fun c => pyModInt c q)) k :=
    trimEq_co _ (hmapIE.intCo _) k
  rw [h1]
  rcases Nat.lt_or_ge k p.coefficients.length with hk | hk
  · have hmem : p.coefficients.getD k (PyNum.int 0) ∈ p.coefficients := by
      rw [List.getD_eq_getElem _ _ hk]
      exact List.getElem_mem hk
    obtain ⟨w, hw⟩ := hp _ hmem
    have hwz : w = z := by
      have hcw : co p.coefficients k = (w : ℚ) := by
        unfold co
        rw [hw]
        rfl
      exact_mod_cast hcw.symm.trans hz
    unfold co
    rw [getD_map_lt _ _ _ (PyNum.int 0) _ hk, hw, hwz]
    rfl
  · have hz0 : z = 0 := by
      have := co_eq_default p.coefficients k hk
      rw [hz] at this
      exact_mod_cast this
    rw [co_eq_default _ _ (by simpa using hk), hz0, Int.zero_fmod]
    simp

/-- Workhorse for the decryption claims: `decrypt` returns exactly the window
test applied to the canonical residues `decryptValue`. -/
theorem decrypt_eq_spec (st : RandomState) (n : ℕ) (hn : 1 ≤ n) (q : ℤ) (hq : 0 < q)
    (s c1 c2 : List ℤ) (hs : s.length = n) (hc1 : c1.length = n) :
    RLWECrypto.decrypt st n q s (c1, c2)
      = (List.range n).map (fun i =>
          if Int.fdiv q 4 < decryptValue n q s c1 c2 i ∧
             decryptValue n q s c1 c2 i < Int.fdiv (3 * q) 4 then 1 else 0) := by
  unfold RLWECrypto.decrypt
  refine List.map_congr_left (fun i hi => ?_)
  rw [List.mem_range] at hi
  set c2_poly := Polynomial.init (c2.map PyNum.int) with hc2p
  set c1s := poly_mul_mod (Polynomial.init (c1.map PyNum.int))
    (Polynomial.init (s.map PyNum.int)) (create_poly_mod n) q with hc1s
  have hval : ((((c2_poly.add c1s).modInt q).to_list n).getD i (PyNum.int 0)).toRat
      = ((decryptValue n q s c1 c2 i : ℤ) : ℚ) := by
    have h1 : ((((c2_poly.add c1s).modInt q).to_list n).getD i (PyNum.int 0)).toRat
        = co (((c2_poly.add c1s).modInt q).to_list n) i := rfl
    rw [h1, to_list_co _ _ _ hi]
    have hc1sco : co c1s.coefficients i
        = ((negacyclicCoeff c1 s n i % q : ℤ) : ℚ) := by
      have := poly_mul_mod_lists_spec n hn q hq c1 s hc1 hs i hi
      rw [hc1s]
      have hgi : co (poly_mul_mod_lists c1 s (create_poly_mod n) q).coefficients i
          = ((poly_mul_mod_lists c1 s (create_poly_mod n) q).getitem i).toRat := rfl
      unfold poly_mul_mod_lists at hgi
      rw [hgi]
      unfold poly_mul_mod_lists at this
      rw [this]
      rfl
    have haddco : co (c2_poly.add c1s).coefficients i
        = (((c2.getD i 0 + negacyclicCoeff c1 s n i % q : ℤ) : ℚ)) := by
      rw [add_co, hc2p, ofIntList_co, hc1sco]
      push_cast
      ring
    have hIE : IntEntries (c2_poly.add c1s).coefficients := by
      refine IntEntries_add _ _ ?_ ?_
      · rw [hc2p]; exact IntEntries_init_map_int c2
      · rw [hc1s]; exact IntEntries_poly_mul_mod _ _ _ q
    rw [modInt_co _ q hIE i _ haddco]
    rw [Int.fmod_eq_emod _ (le_of_lt hq)]
    unfold decryptValue
    rw [Int.add_emod (c2.getD i 0) (negacyclicCoeff c1 s n i % q),
      Int.emod_emod_of_dvd _ dvd_rfl, ← Int.add_emod]
  rw [hval]
  have hcond : (((Int.fdiv q 4 : ℤ) : ℚ) < ((decryptValue n q s c1 c2 i : ℤ) : ℚ) ∧
      ((decryptValue n q s c1 c2 i : ℤ) : ℚ) < ((Int.fdiv (3 * q) 4 : ℤ) : ℚ))
      ↔ (Int.fdiv q 4 < decryptValue n q s c1 c2 i ∧
         decryptValue n q s c1 c2 i < Int.fdiv (3 * q) 4) := by
    constructor
    · intro ⟨h1, h2⟩
      exact ⟨by exact_mod_cast h1, by exact_mod_cast h2⟩
    · intro ⟨h1, h2⟩
      exact ⟨by exact_mod_cast h1, by exact_mod_cast h2⟩
  rw [if_congr hcond rfl rfl]

theorem decryptValue_range (n : ℕ) (q : ℤ) (hq : 0 < q) (s c1 c2 : List ℤ) (i : ℕ) :
    0 ≤ decryptValue n q s c1 c2 i ∧ decryptValue n q s c1 c2 i < q := by
  unfold decryptValue
  exact ⟨Int.emod_nonneg _ (by omega), Int.emod_lt_of_pos _ hq⟩

/-! ### Sampler lemmas -/

theorem from_bytes_to_bytes : ∀ (len r : ℕ), r < 256 ^ len → from_bytes (to_bytes len r) = r := by
  intro len
  induction len with
  | zero =>
    intro r hr
    interval_cases r
    rfl
  | succ len ih =>
    intro r hr
    have hdiv : r / 256 < 256 ^ len := by
      rw [Nat.div_lt_iff_lt_mul (by norm_num)]
      calc r < 256 ^ (len + 1) := hr
      _ = 256 ^ len * 256 := by rw [pow_succ]
    have hfold : from_bytes (to_bytes (len + 1) r)
        = from_bytes (to_bytes len (r / 256)) * 256 + r % 256 := by
      show from_bytes (to_bytes len (r / 256) ++ [r % 256]) = _
      unfold from_bytes
      rw [List.foldl_append]
      rfl
    rw [hfold, ih (r / 256) hdiv]
    omega

theorem randbelow_zeroDiv (r : ℕ) : randbelow 0 r = Except.error PyError.zeroDivisionError := rfl

theorem randbelow_ok (q : ℤ) (hq : q ≠ 0) (r : ℕ) :
    randbelow q r
      = Except.ok (Int.fmod (from_bytes (to_bytes ((Nat.size q.natAbs + 7) / 8) r) : ℤ) q) := by
  unfold randbelow
  rw [if_neg hq]

theorem randbelow_ok_inRange (q : ℤ) (hq : q ≠ 0) (r : ℕ)
    (hr : r < 2 ^ (8 * ((Nat.size q.natAbs + 7) / 8))) :
    randbelow q r = Except.ok (Int.fmod (r : ℤ) q) := by
  rw [randbelow_ok q hq r, from_bytes_to_bytes _ r ?_]
  calc r < 2 ^ (8 * ((Nat.size q.natAbs + 7) / 8)) := hr
  _ = 256 ^ ((Nat.size q.natAbs + 7) / 8) := by
      rw [pow_mul]
      norm_num

theorem mapM_ok {β : Type} (f : ℕ → Except PyError β) (g : ℕ → β)
    (hf : ∀ i, f i = Except.ok (g i)) :
    ∀ l : List ℕ, l.mapM f = Except.ok (l.map g) := by
  intro l
  induction l with
  | nil => rfl
  | cons x xs ih =>
    rw [List.mapM_cons, hf x, List.map_cons]
    rw [ih]
    rfl

theorem sample_uniform_ok (n : ℕ) (q : ℤ) (hq : q ≠ 0) (rs : ℕ → ℕ) :
    sample_uniform n q rs = Except.ok ((List.range n).map
      (fun i => Int.fmod (from_bytes (to_bytes ((Nat.size q.natAbs + 7) / 8) (rs i)) : ℤ) q)) := by
  unfold sample_uniform
  exact mapM_ok _ _ (fun i => randbelow_ok q hq (rs i)) (List.range n)

theorem sample_uniform_spec (n : ℕ) (q : ℤ) (hq : 0 < q) (rs : ℕ → ℕ) :
    ∃ l : List ℤ, sample_uniform n q rs = Except.ok l ∧ l.length = n ∧
      ∀ x ∈ l, 0 ≤ x ∧ x < q := by
  refine ⟨_, sample_uniform_ok n q (by omega) rs, by simp, ?_⟩
  intro x hx
  obtain ⟨i, -, hix⟩ := List.mem_map.mp hx
  rw [← hix]
  exact ⟨Int.fmod_nonneg' _ hq, Int.fmod_lt_of_pos _ hq⟩

theorem sample_uniform_zeroDiv (n : ℕ) (hn : 1 ≤ n) (rs : ℕ → ℕ) :
    sample_uniform n 0 rs = Except.error PyError.zeroDivisionError := by
  obtain ⟨m, rfl⟩ : ∃ m, n = m + 1 := ⟨n - 1, by omega⟩
  unfold sample_uniform
  rw [List.range_succ_eq_map, List.mapM_cons, randbelow_zeroDiv]
  rfl

theorem sample_error_ok (n : ℕ) (q : ℤ) (hq : q ≠ 0) (std_dev : ℚ) (gs : ℕ → ℚ) :
    sample_error n q std_dev gs
      = Except.ok ((List.range n).map (fun i => Int.fmod (pyroundRat (gs i)) q)) := by
  unfold sample_error
  exact mapM_ok _ _ (fun i => by rw [if_neg hq]) (List.range n)

theorem sample_error_spec (n : ℕ) (q : ℤ) (hq : 0 < q) (std_dev : ℚ) (gs : ℕ → ℚ) :
    ∃ l : List ℤ, sample_error n q std_dev gs = Except.ok l ∧ l.length = n ∧
      ∀ x ∈ l, 0 ≤ x ∧ x < q := by
  refine ⟨_, sample_error_ok n q (by omega) std_dev gs, by simp, ?_⟩
  intro x hx
  obtain ⟨i, -, hix⟩ := List.mem_map.mp hx
  rw [← hix]
  exact ⟨Int.fmod_nonneg' _ hq, Int.fmod_lt_of_pos _ hq⟩

theorem sample_error_zeroDiv (n : ℕ) (hn : 1 ≤ n) (std_dev : ℚ) (gs : ℕ → ℚ) :
    sample_error n 0 std_dev gs = Except.error PyError.zeroDivisionError := by
  obtain ⟨m, rfl⟩ : ∃ m, n = m + 1 := ⟨n - 1, by omega⟩
  unfold sample_error
  rw [List.range_succ_eq_map, List.mapM_cons]
  rw [if_pos rfl]
  rfl

/-! ### Interface shapes: keygen, encrypt, decrypt, codec -/

theorem generate_keypair_spec (st : RandomState) (n : ℕ) (q : ℤ) (std_dev : ℚ)
    (hq : 0 < q) :
    ∃ (a : List ℤ) (b : List PyNum) (s : List ℤ),
      RLWECrypto.generate_keypair st n q std_dev = Except.ok ((a, b), s) ∧
      a.length = n ∧ (∀ x ∈ a, 0 ≤ x ∧ x < q) ∧
      b.length = n ∧ (∀ c ∈ b, ∃ z : ℤ, c = PyNum.int z ∧ 0 ≤ z ∧ z < q) ∧
      s.length = n ∧ (∀ x ∈ s, 0 ≤ x ∧ x < q) := by
  obtain ⟨a, ha, haLen, haRange⟩ := sample_uniform_spec n q hq st.randbits
  obtain ⟨s, hs, hsLen, hsRange⟩ := sample_error_spec n q hq std_dev st.gauss
  obtain ⟨e, he, heLen, heRange⟩ := sample_error_spec n q hq std_dev (fun i => st.gauss (n + i))
  refine ⟨a, (((poly_mul_mod (Polynomial.init (a.map PyNum.int))
      (Polynomial.init (s.map PyNum.int)) (create_poly_mod n) q).neg.sub
      (Polynomial.init (e.map PyNum.int))).modInt q).to_list n, s,
    ?_, haLen, haRange, to_list_length _ _, ?_, hsLen, hsRange⟩
  · unfold RLWECrypto.generate_keypair
    rw [ha, hs, he]
    rfl
  · intro c hc
    rcases to_list_mem _ _ c hc with hmem | h0
    · refine modInt_entries_bounds _ q hq ?_ c hmem
      refine IntEntries_sub _ _ ?_ (IntEntries_init_map_int e)
      exact IntEntries_neg _ (IntEntries_poly_mul_mod _ _ _ q)
    · exact ⟨0, by rw [h0], le_refl 0, by omega⟩

theorem encrypt_spec (st : RandomState) (n : ℕ) (q : ℤ) (std_dev : ℚ)
    (public_key : List ℤ × List ℤ) (message : List ℤ) (hq : 0 < q) :
    ∃ (c1 c2 : List PyNum),
      RLWECrypto.encrypt st n q std_dev public_key message = Except.ok (c1, c2) ∧
      c1.length = n ∧ (∀ c ∈ c1, ∃ z : ℤ, c = PyNum.int z ∧ 0 ≤ z ∧ z < q) ∧
      c2.length = n ∧ (∀ c ∈ c2, ∃ z : ℤ, c = PyNum.int z ∧ 0 ≤ z ∧ z < q) := by
  obtain ⟨r, hr, -, -⟩ := sample_error_spec n q hq std_dev st.gauss
  obtain ⟨e1, he1, -, -⟩ := sample_error_spec n q hq std_dev (fun i => st.gauss (n + i))
  obtain ⟨e2, he2, -, -⟩ := sample_error_spec n q hq std_dev (fun i => st.gauss (2 * n + i))
  refine ⟨(((poly_mul_mod (Polynomial.init (public_key.1.map PyNum.int))
        (Polynomial.init (r.map PyNum.int)) (create_poly_mod n) q).add
        (Polynomial.init (e1.map PyNum.int))).modInt q).to_list n,
      ((((poly_mul_mod (Polynomial.init (public_key.2.map PyNum.int))
        (Polynomial.init (r.map PyNum.int)) (create_poly_mod n) q).add
        (Polynomial.init (e2.map PyNum.int))).add
        (Polynomial.init ((message.map (fun bit => Int.fmod (bit * Int.fdiv q 2) q)).map
          PyNum.int))).modInt q).to_list n,
    ?_, to_list_length _ _, ?_, to_list_length _ _, ?_⟩
  · unfold RLWECrypto.encrypt
    rw [hr, he1, he2]
    rfl
  · intro c hc
    rcases to_list_mem _ _ c hc with hmem | h0
    · refine modInt_entries_bounds _ q hq ?_ c hmem
      exact IntEntries_add _ _ (IntEntries_poly_mul_mod _ _ _ q) (IntEntries_init_map_int e1)
    · exact ⟨0, by rw [h0], le_refl 0, by omega⟩
  · intro c hc
    rcases to_list_mem _ _ c hc with hmem | h0
    · refine modInt_entries_bounds _ q hq ?_ c hmem
      refine IntEntries_add _ _ ?_ (IntEntries_init_map_int _)
      exact IntEntries_add _ _ (IntEntries_poly_mul_mod _ _ _ q) (IntEntries_init_map_int e2)
    · exact ⟨0, by rw [h0], le_refl 0, by omega⟩

theorem decrypt_shape (st : RandomState) (n : ℕ) (q : ℤ) (private_key : List ℤ)
    (ciphertext : List ℤ × List ℤ) :
    (RLWECrypto.decrypt st n q private_key ciphertext).length = n ∧
    ∀ x ∈ RLWECrypto.decrypt st n q private_key ciphertext, x = 0 ∨ x = 1 := by
  unfold RLWECrypto.decrypt
  constructor
  · rw [List.length_map, List.length_range]
  · intro x hx
    obtain ⟨i, -, hix⟩ := List.mem_map.mp hx
    rw [← hix]
    by_cases h : ((Int.fdiv q 4 : ℤ) : ℚ) < (((((Polynomial.init (ciphertext.2.map PyNum.int)).add
        (poly_mul_mod (Polynomial.init (ciphertext.1.map PyNum.int))
          (Polynomial.init (private_key.map PyNum.int)) (create_poly_mod n) q)).modInt
          q).to_list n).getD i (PyNum.int 0)).toRat ∧
        (((((Polynomial.init (ciphertext.2.map PyNum.int)).add
        (poly_mul_mod (Polynomial.init (ciphertext.1.map PyNum.int))
          (Polynomial.init (private_key.map PyNum.int)) (create_poly_mod n) q)).modInt
          q).to_list n).getD i (PyNum.int 0)).toRat < ((Int.fdiv (3 * q) 4 : ℤ) : ℚ)
    · rw [if_pos h]
      exact Or.inr rfl
    · rw [if_neg h]
      exact Or.inl rfl

/-! ### Message codec -/

set_option maxRecDepth 4000 in
theorem byte_pack_unpack (b : ℕ) (hb : b < 256) :
    (List.range 8).foldl
      (fun byte j => byte ||| ((((List.range 8).map (fun i => (b >>> i) &&& 1)).getD j 0) <<< j)) 0
      = b := by
  revert hb
  revert b
  decide

theorem bits_to_bytes_of_bytes_to_bits (x : List ℕ) (hx : ∀ b ∈ x, b < 256) :
    bits_to_bytes (bytes_to_bits x) = x := by
  induction x with
  | nil => rfl
  | cons b rest ih =>
    have hb : b < 256 := hx b (by simp)
    have hchunk : bytes_to_bits (b :: rest)
        = ((b >>> 0) &&& 1) :: ((b >>> 1) &&& 1) :: ((b >>> 2) &&& 1) :: ((b >>> 3) &&& 1) ::
          ((b >>> 4) &&& 1) :: ((b >>> 5) &&& 1) :: ((b >>> 6) &&& 1) :: ((b >>> 7) &&& 1) ::
          bytes_to_bits rest := rfl
    rw [hchunk]
    show ((List.range 8).foldl (fun byte j => byte |||
        (([((b >>> 0) &&& 1), ((b >>> 1) &&& 1), ((b >>> 2) &&& 1), ((b >>> 3) &&& 1),
           ((b >>> 4) &&& 1), ((b >>> 5) &&& 1), ((b >>> 6) &&& 1), ((b >>> 7) &&& 1)].getD j 0)
          <<< j)) 0) :: bits_to_bytes (bytes_to_bits rest) = b :: rest
    rw [ih (fun c hc => hx c (by simp [hc]))]
    have := byte_pack_unpack b hb
    have hlist : ((List.range 8).map (fun i => (b >>> i) &&& 1))
        = [((b >>> 0) &&& 1), ((b >>> 1) &&& 1), ((b >>> 2) &&& 1), ((b >>> 3) &&& 1),
           ((b >>> 4) &&& 1), ((b >>> 5) &&& 1), ((b >>> 6) &&& 1), ((b >>> 7) &&& 1)] := rfl
    rw [hlist] at this
    rw [this]

/-! ### Claim theorems -/

/-- Python `round` of an integer cast is that integer. -/
theorem pyroundRat_intCast (z : ℤ) : pyroundRat (z : ℚ) = z :=
  pyround_intValue (PyNum.float (z : ℚ)) z rfl

theorem size_div_two_add (n : ℕ) (hn : n ≠ 0) : Nat.size n = Nat.size (n / 2) + 1 := by
  have h1 : n / 2 < 2 ^ Nat.size (n / 2) := Nat.lt_size_self _
  have hle : Nat.size n ≤ Nat.size (n / 2) + 1 := by
    rw [Nat.size_le, pow_succ]
    omega
  have hge : Nat.size (n / 2) + 1 ≤ Nat.size n := by
    rcases Nat.eq_zero_or_pos (Nat.size (n / 2)) with h0 | hpos
    · rw [h0]
      exact Nat.size_pos.mpr (Nat.pos_of_ne_zero hn)
    · obtain ⟨t, ht⟩ : ∃ t, Nat.size (n / 2) = t + 1 :=
        ⟨Nat.size (n / 2) - 1, by omega⟩

      have h2 : 2 ^ t ≤ n / 2 := Nat.lt_size.mp (by omega)
      have h3 : 2 ^ (t + 1) ≤ n := by
        rw [pow_succ]
        omega
      have h4 : t + 1 < Nat.size n := Nat.lt_size.mpr h3
      omega
  omega

theorem bitLenAux_eq_size (f : ℕ) : ∀ n : ℕ, n < 2 ^ f → bitLenAux f n = Nat.size n := by
  induction f with
  | zero =>
    intro n hn
    have hn0 : n = 0 := by simpa using hn
    subst hn0
    simp [bitLenAux, Nat.size_zero]
  | succ f ih =>
    intro n hn
    by_cases h0 : n = 0
    · subst h0
      simp [bitLenAux, Nat.size_zero]
    · have hstep : bitLenAux (f + 1) n = bitLenAux f (n / 2) + 1 := by
        simp [bitLenAux, h0]
      have hlt : n / 2 < 2 ^ f := by
        have hp : 2 ^ (f + 1) = 2 ^ f * 2 := pow_succ 2 f
        omega
      rw [hstep, ih (n / 2) hlt, ← size_div_two_add n h0]

theorem bitLen_eq_size (n : ℕ) : bitLen n = Nat.size n :=
  bitLenAux_eq_size n n (Nat.lt_two_pow n)

theorem floorLog2_intCast_le (z : ℤ) (hz : z.natAbs < 2 ^ 53) :
    floorLog2 |(z : ℚ)| ≤ 52 := by
  have hnum : (|(z : ℚ)|).num.natAbs = z.natAbs := by
    rw [← Int.cast_abs, Rat.num_intCast]
    exact Int.natAbs_abs z
  have hden : (|(z : ℚ)|).den = 1 := by
    rw [← Int.cast_abs, Rat.den_intCast]
  have hsize : Nat.size z.natAbs ≤ 53 := Nat.size_le.mpr hz
  have hone : Nat.size 1 = 1 := by
    have h1 : Nat.size 1 ≤ 1 := Nat.size_le.mpr (by norm_num)
    have h2 : 0 < Nat.size 1 := Nat.size_pos.mpr (by norm_num)
    omega
  simp only [floorLog2, bitLen_eq_size]
  rw [hnum, hden, hone]
  split
  · omega
  · omega

/-- Binary64 rounding is the identity on every integer of magnitude below
`2^53`: exactly the range to which the amended multiplication and decryption
claims confine the pipeline, where the exact-rational float semantics and
CPython's doubles agree. -/
theorem roundDouble_intCast_small (z : ℤ) (hz : z.natAbs < 2 ^ 53) :
    roundDouble (z : ℚ) = (z : ℚ) := by
  rcases eq_or_ne z 0 with rfl | hz0
  · simp [roundDouble]
  · have hcast0 : (z : ℚ) ≠ 0 := by exact_mod_cast hz0
    unfold roundDouble
    rw [if_neg hcast0]
    have hee : floorLog2 |(z : ℚ)| - 52 ≤ 0 := by
      have := floorLog2_intCast_le z hz
      omega
    obtain ⟨d, hd⟩ : ∃ d : ℕ, floorLog2 |(z : ℚ)| - 52 = -(d : ℤ) :=
      ⟨(-(floorLog2 |(z : ℚ)| - 52)).toNat, by omega⟩
    simp only [hd]
    have hpow : (2 : ℚ) ^ (-(d : ℤ)) = ((2 : ℚ) ^ d)⁻¹ := by
      rw [zpow_neg, zpow_natCast]
    have hscaled : |(z : ℚ)| / (2 : ℚ) ^ (-(d : ℤ)) = ((|z| * 2 ^ d : ℤ) : ℚ) := by
      rw [hpow, div_eq_mul_inv, inv_inv]
      push_cast
      ring
    rw [hscaled, pyroundRat_intCast, hpow]
    have h2d : ((2 : ℚ) ^ d) ≠ 0 := by positivity
    rcases lt_or_ge z 0 with hneg | hpos
    · rw [if_pos (by exact_mod_cast hneg)]
      push_cast
      rw [abs_of_neg (by exact_mod_cast hneg : (z : ℚ) < 0)]
      field_simp
    · rw [if_neg (by exact_mod_cast not_lt.mpr hpos : ¬ ((z : ℚ) < 0))]
      push_cast
      rw [abs_of_nonneg (by exact_mod_cast hpos : (0 : ℚ) ≤ (z : ℚ))]
      field_simp

set_option maxRecDepth 8000 in
/-- Binary64 rounding is not the identity above `2^53`: at magnitude `2^54`
doubles are spaced `4` apart, so `2^54 + 1` rounds down to `2^54`. -/
theorem roundDouble_first_gap : roundDouble ((2 : ℚ) ^ 54 + 1) = 2 ^ 54 := by
  have h : roundDouble ((2 : ℚ) ^ 54 + 1) - 2 ^ 54 = 0 := by with_unfolding_all decide
  exact sub_eq_zero.mp h

set_option maxRecDepth 1000000 in
/-- C1 (counterexample): under CPython's binary64 float semantics the
original claim fails once intermediate coefficients exceed `2^53`: with
`n = 2`, `q = 2^54 + 3` (odd, `≥ 2`) and `a = b = [q - 2, 1]` (entries in
`[0, q)`), the real `poly_mul_mod` stores `2^54` at coefficient 0 — the
remainder step's double subtraction rounds `(q-2)^2 = 2^108 + 2^55 + 1` to
the nearest double `2^108 + 2^56` — while the claimed exact negacyclic
residue is `3`. -/
theorem C1_counterexample_double_rounding :
    (poly_mul_mod_listsD [2 ^ 54 + 1, 1] [2 ^ 54 + 1, 1] (create_poly_mod 2) (2 ^ 54 + 3)).getitem 0
      = PyNum.int (2 ^ 54) ∧
    negacyclicCoeff [2 ^ 54 + 1, 1] [2 ^ 54 + 1, 1] 2 0 % (2 ^ 54 + 3) = 3 ∧
    (2 ^ 54 : ℤ) ≠ 3 := by
  refine ⟨by with_unfolding_all rfl, by with_unfolding_all rfl, by norm_num⟩

/-- C1 (amended): for every `n` that is a positive power of two and every odd
`q ≥ 2` small enough that `n·(q-1)² < 2^53` — so every intermediate
coefficient of the pipeline is an integer that binary64 floats represent
exactly, which holds for the scheme's default `n = 1024`, `q = 40961` — and
all coefficient vectors `a`, `b` of length `n` with entries in `[0, q)`, the
negacyclic product computed by `poly_mul_mod` satisfies, for every `k < n`,
`result[k] = (Σ_{i+j=k} a[i]·b[j]) − (Σ_{i+j=k+n} a[i]·b[j])` reduced
canonically mod `q` into `[0, q)`. -/
theorem C1_poly_mul_mod_negacyclic (n : ℕ) (hpow : ∃ e : ℕ, n = 2 ^ e) (hn : 0 < n)
    (q : ℤ) (hq : 2 ≤ q) (hodd : Odd q) (hfit : (n : ℤ) * (q - 1) ^ 2 < 2 ^ 53)
    (a b : List ℤ) (ha : a.length = n) (hb : b.length = n)
    (hra : ∀ x ∈ a, 0 ≤ x ∧ x < q) (hrb : ∀ x ∈ b, 0 ≤ x ∧ x < q) :
    ∀ k, k < n →
      (poly_mul_mod_lists a b (create_poly_mod n) q).getitem k
        = PyNum.int (negacyclicCoeff a b n k % q) ∧
      0 ≤ negacyclicCoeff a b n k % q ∧ negacyclicCoeff a b n k % q < q := by
  intro k hk
  refine ⟨poly_mul_mod_lists_spec n hn q (by omega) a b ha hb k hk, ?_, ?_⟩
  · exact Int.emod_nonneg _ (by omega)
  · exact Int.emod_lt_of_pos _ (by omega)

theorem C1_witness :
    (poly_mul_mod_lists [1, 2] [2, 1] (create_poly_mod 2) 3).getitem 0
      = PyNum.int (negacyclicCoeff [1, 2] [2, 1] 2 0 % 3) ∧
    0 ≤ negacyclicCoeff [1, 2] [2, 1] 2 0 % 3 ∧ negacyclicCoeff [1, 2] [2, 1] 2 0 % 3 < 3 :=
  C1_poly_mul_mod_negacyclic 2 ⟨1, rfl⟩ (by norm_num) 3 (by norm_num) ⟨1, by norm_num⟩
    (by norm_num) [1, 2] [2, 1] rfl rfl (by decide) (by decide) 0 (by norm_num)

/-- C2 (counterexample): the multiplication pipeline does produce a
floating-point value before the final reduction mod `q`: with `n = 2`,
`q = 3`, `a = b = [1, 1]` (entries in `[0, q)`), the polynomial remainder
computed inside `poly_mul_mod` stores a Python `float` at coefficient 0,
refuting the claim that no float is produced or consumed at any step before
the final reduction. -/
theorem C2_counterexample_float_intermediate :
    ((polynomial_mod ((Polynomial.init ([1, 1].map PyNum.int)).mul
        (Polynomial.init ([1, 1].map PyNum.int))) (create_poly_mod 2)).coefficients.getD 0
        (PyNum.int 0)).isFloat = true := by
  with_unfolding_all decide

/-- C2 (amended): the schoolbook product itself is exact integer arithmetic,
and although the polynomial remainder step performs true division (producing
floats), every intermediate coefficient value remains an exact integer-valued
number, and the final `round(·) % q` stores exact Python ints. -/
theorem C2_amended_integer_values (n : ℕ) (hn : 0 < n) (q : ℤ) (hq : 2 ≤ q)
    (a b : List ℤ) (ha : a.length = n) (hb : b.length = n) :
    IntCo ((Polynomial.init (a.map PyNum.int)).mul (Polynomial.init (b.map PyNum.int))).coefficients ∧
    IntCo (polynomial_mod ((Polynomial.init (a.map PyNum.int)).mul
        (Polynomial.init (b.map PyNum.int))) (create_poly_mod n)).coefficients ∧
    IntEntries (poly_mul_mod_lists a b (create_poly_mod n) q).coefficients := by
  have hane : a ≠ [] := by intro h; rw [h] at ha; simp at ha; omega
  have hbne : b ≠ [] := by intro h; rw [h] at hb; simp at hb; omega
  obtain ⟨hPlen, hPint, hPco⟩ := mul_int_lists a b hane hbne
  obtain ⟨-, hRint, -⟩ := polynomial_mod_spec n hn _ (by omega) hPint
  exact ⟨hPint, hRint, IntEntries_poly_mul_mod _ _ _ q⟩

theorem C2_witness :
    IntCo ((Polynomial.init ([1, 1].map PyNum.int)).mul
        (Polynomial.init ([1, 1].map PyNum.int))).coefficients ∧
    IntCo (polynomial_mod ((Polynomial.init ([1, 1].map PyNum.int)).mul
        (Polynomial.init ([1, 1].map PyNum.int))) (create_poly_mod 2)).coefficients ∧
    IntEntries (poly_mul_mod_lists [1, 1] [1, 1] (create_poly_mod 2) 3).coefficients :=
  C2_amended_integer_values 2 (by norm_num) 3 (by norm_num) [1, 1] [1, 1] rfl rfl

/-- C3 (counterexample): the uniform integer sampler is not rejection
sampling and its outputs are not equiprobable: for `q = 3` the 8-bit draw is
reduced with `%`, so over the 256 equally likely draws the value 0 occurs 86
times while 1 occurs 85 times. -/
theorem C3_counterexample_modulo_bias :
    ((Finset.range 256).filter (fun r => randbelow 3 r = Except.ok 0)).card = 86 ∧
    ((Finset.range 256).filter (fun r => randbelow 3 r = Except.ok 1)).card = 85 ∧
    ((Finset.range 256).filter (fun r => randbelow 3 r = Except.ok 0)).card
      ≠ ((Finset.range 256).filter (fun r => randbelow 3 r = Except.ok 1)).card := by
  with_unfolding_all decide

/-- C3 (amended): each coefficient is obtained by drawing a fixed-width
(`8·⌈bitlen(q)/8⌉`-bit) unbiased value and reducing it modulo `q` — never
rejecting — so outputs lie in `{0, …, q−1}` but are biased whenever `q` does
not divide the draw range. -/
theorem C3_amended_fixed_width_mod (q : ℤ) (hq : 0 < q) (r : ℕ)
    (hr : r < 2 ^ (8 * ((Nat.size q.natAbs + 7) / 8))) :
    randbelow q r = Except.ok (Int.fmod (r : ℤ) q) ∧
    0 ≤ Int.fmod (r : ℤ) q ∧ Int.fmod (r : ℤ) q < q :=
  ⟨randbelow_ok_inRange q (by omega) r hr, Int.fmod_nonneg' _ hq, Int.fmod_lt_of_pos _ hq⟩

theorem C3_witness :
    randbelow 3 5 = Except.ok (Int.fmod (5 : ℤ) 3) ∧
    0 ≤ Int.fmod (5 : ℤ) 3 ∧ Int.fmod (5 : ℤ) 3 < 3 :=
  C3_amended_fixed_width_mod 3 (by norm_num) 5 (by with_unfolding_all decide)

set_option maxRecDepth 1000000 in
/-- C4 (counterexample): under CPython's binary64 float semantics the
original claim fails once intermediate coefficients exceed `2^53`: with
`n = 2`, `q = 2^54 + 3`, `s = c1 = [q - 2, 1]` and `c2 = [0, 3·q//4 + 4]`,
the real `decrypt` returns bit `1` at index 1, while the exact value
`v[1] = (c2[1] + (c1·s)[1]) mod q` equals `⌊3q/4⌋` exactly, so the claimed
strict window forces bit `0` there. -/
theorem C4_counterexample_double_rounding :
    RLWECrypto.decryptD ⟨fun _ => 0, fun _ => 0⟩ 2 (2 ^ 54 + 3)
        [2 ^ 54 + 1, 1] ([2 ^ 54 + 1, 1], [0, 3 * 2 ^ 52 + 6]) = [0, 1] ∧
    (if Int.fdiv (2 ^ 54 + 3) 4
          < decryptValue 2 (2 ^ 54 + 3) [2 ^ 54 + 1, 1] [2 ^ 54 + 1, 1] [0, 3 * 2 ^ 52 + 6] 1 ∧
        decryptValue 2 (2 ^ 54 + 3) [2 ^ 54 + 1, 1] [2 ^ 54 + 1, 1] [0, 3 * 2 ^ 52 + 6] 1
          < Int.fdiv (3 * (2 ^ 54 + 3)) 4 then (1 : ℤ) else 0) = 0 := by
  refine ⟨by with_unfolding_all rfl, by with_unfolding_all rfl⟩

/-- C4 (amended): for `q` small enough that `n·(q-1)² < 2^53` — so every
intermediate coefficient of the multiplication pipeline is an integer that
binary64 floats represent exactly, which holds for the scheme's default
`n = 1024`, `q = 40961` — and every private key `s` and ciphertext
`(c1, c2)` of length-`n` vectors with coefficients in `[0, q)`, `decrypt`
computes `v = c2 + c1·s` in `R_q` with `v[i] ∈ [0, q)`, returns `m'` with
`m'[i] = 1` exactly when `⌊q/4⌋ < v[i] < ⌊3q/4⌋`, and a value exactly at
`⌊q/4⌋` or `⌊3q/4⌋` decodes to 0. -/
theorem C4_decrypt_window (st : RandomState) (n : ℕ) (hpow : ∃ e : ℕ, n = 2 ^ e)
    (hn : 0 < n) (q : ℤ) (hq : 2 ≤ q) (hfit : (n : ℤ) * (q - 1) ^ 2 < 2 ^ 53)
    (s c1 c2 : List ℤ) (hs : s.length = n) (hc1 : c1.length = n) (hc2 : c2.length = n)
    (hrs : ∀ x ∈ s, 0 ≤ x ∧ x < q) (hr1 : ∀ x ∈ c1, 0 ≤ x ∧ x < q)
    (hr2 : ∀ x ∈ c2, 0 ≤ x ∧ x < q) :
    RLWECrypto.decrypt st n q s (c1, c2)
      = (List.range n).map (fun i =>
          if Int.fdiv q 4 < decryptValue n q s c1 c2 i ∧
             decryptValue n q s c1 c2 i < Int.fdiv (3 * q) 4 then 1 else 0) ∧
    (∀ i, i < n → 0 ≤ decryptValue n q s c1 c2 i ∧ decryptValue n q s c1 c2 i < q) ∧
    (∀ i, i < n →
      (decryptValue n q s c1 c2 i = Int.fdiv q 4 ∨
       decryptValue n q s c1 c2 i = Int.fdiv (3 * q) 4) →
      (RLWECrypto.decrypt st n q s (c1, c2)).getD i 0 = 0) := by
  have hmain := decrypt_eq_spec st n (by omega) q (by omega) s c1 c2 hs hc1
  refine ⟨hmain, fun i _ => decryptValue_range n q (by omega) s c1 c2 i, fun i hi hbound => ?_⟩
  rw [hmain, List.getD_eq_getElem _ _ (by simpa using hi), List.getElem_map]
  have hcond : ¬(Int.fdiv q 4 < decryptValue n q s c1 c2 i ∧
      decryptValue n q s c1 c2 i < Int.fdiv (3 * q) 4) := by
    rcases hbound with h | h <;> rw [h] <;> omega
  simp only [List.getElem_range]
  rw [if_neg hcond]

theorem C4_witness :
    RLWECrypto.decrypt ⟨fun _ => 0, fun _ => 0⟩ 1 5 [2] ([1], [3])
      = (List.range 1).map (fun i =>
          if Int.fdiv 5 4 < decryptValue 1 5 [2] [1] [3] i ∧
             decryptValue 1 5 [2] [1] [3] i < Int.fdiv (3 * 5) 4 then 1 else 0) :=
  (C4_decrypt_window ⟨fun _ => 0, fun _ => 0⟩ 1 ⟨0, rfl⟩ (by norm_num) 5 (by norm_num)
    (by norm_num) [2] [1] [3] rfl rfl rfl (by decide) (by decide) (by decide)).1

/-- C5 (counterexample): called with `q = -3 ≤ 0`, the uniform sampler does
not surface any `InvalidParameter` error — it returns a value
(`5 % -3 = -1` with Python's `%` semantics). -/
theorem C5_counterexample_no_invalid_parameter :
    sample_uniform 1 (-3) (fun _ => 5) = Except.ok [-1] := by
  with_unfolding_all decide

/-- C5 (amended): neither sampler ever raises `InvalidParameter`. With
`q = 0` (and `n ≥ 1`) both samplers raise `ZeroDivisionError` from `% 0`;
with any `q ≠ 0` — including negative `q` and regardless of `std_dev`, even
`std_dev ≤ 0` — both samplers return a value. -/
theorem C5_amended_sampler_failures (n : ℕ) (hn : 1 ≤ n) (q : ℤ) (std_dev : ℚ)
    (rs : ℕ → ℕ) (gs : ℕ → ℚ) :
    (q = 0 → sample_uniform n q rs = Except.error PyError.zeroDivisionError ∧
      sample_error n q std_dev gs = Except.error PyError.zeroDivisionError) ∧
    (q ≠ 0 → (∃ l, sample_uniform n q rs = Except.ok l) ∧
      ∃ l, sample_error n q std_dev gs = Except.ok l) := by
  constructor
  · rintro rfl
    exact ⟨sample_uniform_zeroDiv n hn rs, sample_error_zeroDiv n hn std_dev gs⟩
  · intro hq
    exact ⟨⟨_, sample_uniform_ok n q hq rs⟩, ⟨_, sample_error_ok n q hq std_dev gs⟩⟩

theorem C5_witness :
    sample_uniform 1 0 (fun _ => 0) = Except.error PyError.zeroDivisionError ∧
    sample_error 1 0 1 (fun _ => 0) = Except.error PyError.zeroDivisionError :=
  (C5_amended_sampler_failures 1 (by norm_num) 0 1 (fun _ => 0) (fun _ => 0)).1 rfl

/-- C6: for every byte string `x` (entries below 256),
`bits_to_bytes (bytes_to_bits x) = x`, with bits emitted and regrouped
least-significant-bit first. -/
theorem C6_codec_roundtrip (x : List ℕ) (hx : ∀ b ∈ x, b < 256) :
    bits_to_bytes (bytes_to_bits x) = x :=
  bits_to_bytes_of_bytes_to_bits x hx

theorem C6_witness : bits_to_bytes (bytes_to_bits [165, 7]) = [165, 7] :=
  C6_codec_roundtrip [165, 7] (by decide)

/-- C7: for every scheme instance with valid parameters (`n` a positive
power of two, `q ≥ 2`, `σ > 0`), every vector crossing a component
interface — the `pk` components `a` and `b` and the `sk` returned by
`generate_keypair`, the ciphertext components returned by `encrypt`, the
sampler outputs, and the bit vector returned by `decrypt` — has length
exactly `n` and every entry in `[0, q)`. -/
theorem C7_interface_invariants (n : ℕ) (hpow : ∃ e : ℕ, n = 2 ^ e) (hn : 0 < n)
    (q : ℤ) (hq : 2 ≤ q) (std_dev : ℚ) (hsd : 0 < std_dev) :
    (∀ st : RandomState, ∃ (a : List ℤ) (b : List PyNum) (s : List ℤ),
      RLWECrypto.generate_keypair st n q std_dev = Except.ok ((a, b), s) ∧
      a.length = n ∧ (∀ x ∈ a, 0 ≤ x ∧ x < q) ∧
      b.length = n ∧ (∀ c ∈ b, ∃ z : ℤ, c = PyNum.int z ∧ 0 ≤ z ∧ z < q) ∧
      s.length = n ∧ (∀ x ∈ s, 0 ≤ x ∧ x < q)) ∧
    (∀ (st : RandomState) (pk : List ℤ × List ℤ) (msg : List ℤ),
      ∃ c1 c2, RLWECrypto.encrypt st n q std_dev pk msg = Except.ok (c1, c2) ∧
      c1.length = n ∧ (∀ c ∈ c1, ∃ z : ℤ, c = PyNum.int z ∧ 0 ≤ z ∧ z < q) ∧
      c2.length = n ∧ (∀ c ∈ c2, ∃ z : ℤ, c = PyNum.int z ∧ 0 ≤ z ∧ z < q)) ∧
    (∀ rs : ℕ → ℕ, ∃ l, sample_uniform n q rs = Except.ok l ∧ l.length = n ∧
      ∀ x ∈ l, 0 ≤ x ∧ x < q) ∧
    (∀ gs : ℕ → ℚ, ∃ l, sample_error n q std_dev gs = Except.ok l ∧ l.length = n ∧
      ∀ x ∈ l, 0 ≤ x ∧ x < q) ∧
    (∀ (st : RandomState) (s : List ℤ) (ct : List ℤ × List ℤ),
      (RLWECrypto.decrypt st n q s ct).length = n ∧
      ∀ x ∈ RLWECrypto.decrypt st n q s ct, 0 ≤ x ∧ x < q) := by
  have hq0 : 0 < q := by omega
  refine ⟨fun st => generate_keypair_spec st n q std_dev hq0,
    fun st pk msg => encrypt_spec st n q std_dev pk msg hq0,
    fun rs => sample_uniform_spec n q hq0 rs,
    fun gs => sample_error_spec n q hq0 std_dev gs,
    fun st s ct => ?_⟩
  obtain ⟨hlen, hmem⟩ := decrypt_shape st n q s ct
  refine ⟨hlen, fun x hx => ?_⟩
  rcases hmem x hx with rfl | rfl <;> omega

theorem C7_witness :
    ∃ l, sample_uniform 1 3 (fun _ => 0) = Except.ok l ∧ l.length = 1 ∧
      ∀ x ∈ l, 0 ≤ x ∧ x < 3 :=
  (C7_interface_invariants 1 ⟨0, rfl⟩ (by norm_num) 3 (by norm_num) 1
    (by norm_num)).2.2.1 (fun _ => 0)

/-- C8: for every private key of length `n` with coefficients in `[0, q)`
and every well-formed ciphertext pair, `decrypt` terminates normally (it is a
total function in this embedding) and returns a vector in `{0,1}^n`; no
ciphertext content makes it raise. -/
theorem C8_decrypt_total (st : RandomState) (n : ℕ) (q : ℤ) (hq : 2 ≤ q)
    (s c1 c2 : List ℤ) (hs : s.length = n) (hc1 : c1.length = n) (hc2 : c2.length = n)
    (hrs : ∀ x ∈ s, 0 ≤ x ∧ x < q) (hr1 : ∀ x ∈ c1, 0 ≤ x ∧ x < q)
    (hr2 : ∀ x ∈ c2, 0 ≤ x ∧ x < q) :
    (RLWECrypto.decrypt st n q s (c1, c2)).length = n ∧
    ∀ x ∈ RLWECrypto.decrypt st n q s (c1, c2), x = 0 ∨ x = 1 :=
  decrypt_shape st n q s (c1, c2)

theorem C8_witness :
    (RLWECrypto.decrypt ⟨fun _ => 0, fun _ => 0⟩ 1 5 [2] ([1], [3])).length = 1 :=
  (C8_decrypt_total ⟨fun _ => 0, fun _ => 0⟩ 1 5 (by norm_num) [2] [1] [3] rfl rfl rfl
    (by decide) (by decide) (by decide)).1

/-- C9: `decrypt` consumes no randomness: for any two states of the ambient
`random` module, decryption of the same inputs returns identical bit
vectors. -/
theorem C9_decrypt_deterministic (st₁ st₂ : RandomState) (n : ℕ) (q : ℤ)
    (private_key : List ℤ) (ciphertext : List ℤ × List ℤ) :
    RLWECrypto.decrypt st₁ n q private_key ciphertext
      = RLWECrypto.decrypt st₂ n q private_key ciphertext := rfl

/-- C10: constructing a `Polynomial` from a list of exactly `n` integers
(which trims trailing zeros) and then calling `to_list(n)` (which pads back)
returns the original list: the trim-then-pad round trip loses nothing. -/
theorem C10_trim_pad_roundtrip (n : ℕ) (v : List ℤ) (hv : v.length = n) :
    (Polynomial.init (v.map PyNum.int)).to_list n = v.map PyNum.int := by
  subst hv
  obtain ⟨t, ht0, hall⟩ := popTrailing_decomp (fun c => decide (c.toRat = 0)) (v.map PyNum.int)
  have ht : v.map PyNum.int = trimEq (v.map PyNum.int) ++ t := ht0
  have ht0' : ∀ c ∈ t, c = PyNum.int 0 := by
    intro c hc
    have hcm : c ∈ v.map PyNum.int := by rw [ht]; exact List.mem_append_right _ hc
    obtain ⟨z, hz⟩ := IntEntries_map_int v c hcm
    have hc0 := hall c hc
    rw [decide_eq_true_eq] at hc0
    rw [hz] at hc0 ⊢
    rw [toRat_int] at hc0
    have hz0 : z = 0 := by exact_mod_cast hc0
    rw [hz0]
  have htrep : t = List.replicate t.length (PyNum.int 0) := List.eq_replicate_of_mem ht0'
  have hlen : (trimEq (v.map PyNum.int)).length + t.length = v.length := by
    have hl := congrArg List.length ht
    rw [List.length_append] at hl
    simp only [List.length_map] at hl
    omega
  show Polynomial.to_list ⟨trimEq (v.map PyNum.int)⟩ v.length = v.map PyNum.int
  have hproj : (Polynomial.mk (trimEq (v.map PyNum.int))).coefficients
      = trimEq (v.map PyNum.int) := rfl
  unfold Polynomial.to_list
  rw [hproj]
  rcases Nat.lt_or_ge (trimEq (v.map PyNum.int)).length v.length with hlt | hge
  · rw [if_pos hlt]
    have hrep : List.replicate (v.length - (trimEq (v.map PyNum.int)).length) (PyNum.int 0)
        = t := by
      rw [htrep]
      congr 1
      omega
    rw [hrep]
    exact ht.symm
  · have heq : (trimEq (v.map PyNum.int)).length = v.length := by
      have hle : (trimEq (v.map PyNum.int)).length ≤ (v.map PyNum.int).length :=
        popTrailing_length_le _ _
      rw [List.length_map] at hle
      omega
    have htnil : t = [] := by
      have : t.length = 0 := by omega
      exact List.length_eq_zero.mp this
    rw [if_neg (by omega), if_neg (by omega)]
    rw [htnil, List.append_nil] at ht
    exact ht.symm

theorem C10_witness :
    (Polynomial.init ([1, 0, 2, 0].map PyNum.int)).to_list 4 = [1, 0, 2, 0].map PyNum.int :=
  C10_trim_pad_roundtrip 4 [1, 0, 2, 0] rfl

end RLWE
